import Mathlib

/-!
Verification of the skir plugin manager core: URL parsing (`GitSource::parse`),
the status aggregator (`StatusManager`), the skill scanner (`scan_for_skills`),
and the symlink/link-target operations (`Skill::link_to`, `Skill::unlink_from`,
`Plugin::remove`, `Plugin::update`).  Rust strings are modelled as `List Char`,
filesystem paths as lists of components, and the mutable filesystem as an
explicit state value threaded through each operation.
-/

namespace Skir

/-- Rust `&str` / `String`, modelled as a list of characters. -/
abbrev Str := List Char

/-- Filesystem paths, modelled as the list of path components. -/
abbrev FPath := List String

/-- `PluginError` from `src/plugin/error.rs`.  URL-carrying variants keep the
character-list representation used by the parser; the link errors carry the
`String` names used by the link layer.  `Io` stands for the wrapped
`std::io::Error` variant (its payload is irrelevant to the claims). -/
inductive PluginError where
  | InvalidUrl (url : Str)
  | CloneFailed (url : Str) (stderr : Str)
  | UpdateFailed (path : FPath) (stderr : Str)
  | NotInstalled (name : String)
  | LinkFailed (name : String) (reason : String)
  | AlreadyLinked (name : String)
  | NotLinked (name : String)
  | CacheDirectoryNotFound
  | Io
deriving DecidableEq

instance {ε α : Type} [DecidableEq ε] [DecidableEq α] : DecidableEq (Except ε α) :=
  fun a b =>
  match a, b with
  | .ok x, .ok y =>
    if h : x = y then isTrue (by rw [h]) else isFalse (by intro hc; cases hc; exact h rfl)
  | .error x, .error y =>
    if h : x = y then isTrue (by rw [h]) else isFalse (by intro hc; cases hc; exact h rfl)
  | .ok _, .error _ => isFalse (by intro hc; cases hc)
  | .error _, .ok _ => isFalse (by intro hc; cases hc)

/-! ## String primitives used by `GitSource::parse` -/

/-- Rust `str::trim` (drop leading and trailing whitespace). -/
def strTrim (s : Str) : Str :=
  ((s.dropWhile Char.isWhitespace).reverse.dropWhile Char.isWhitespace).reverse

/-- Rust `str::split_once(c)`: split at the first occurrence of `c`,
excluding the separator; `none` when `c` does not occur. -/
def splitOnce (c : Char) : Str → Option (Str × Str)
  | [] => none
  | x :: xs =>
    if x = c then some ([], xs)
    else (splitOnce c xs).map (fun p => (x :: p.1, p.2))

/-- Rust `str::splitn(2, c).collect::<Vec<_>>()`. -/
def splitn2 (c : Char) (s : Str) : List Str :=
  match splitOnce c s with
  | some (a, b) => [a, b]
  | none => [s]

/-- Rust `str::strip_prefix(p)`. -/
def stripPrefixStr (p s : Str) : Option Str :=
  if p.isPrefixOf s then some (s.drop p.length) else none

/-- Rust `str::strip_suffix(p)`. -/
def stripSuffixStr (p s : Str) : Option Str :=
  if p.isSuffixOf s then some (s.take (s.length - p.length)) else none

/-- Rust `str::contains(pat)` for a string pattern. -/
def containsStr (pat : Str) : Str → Bool
  | [] => pat.isEmpty
  | c :: rest => pat.isPrefixOf (c :: rest) || containsStr pat rest

/-- The literal `"https://"`. -/
def httpsPrefix : Str := ['h', 't', 't', 'p', 's', ':', '/', '/']

/-- The literal `"git@"`. -/
def gitAtPrefix : Str := ['g', 'i', 't', '@']

/-- The literal `".git"`. -/
def gitSuffix : Str := ['.', 'g', 'i', 't']

/-- The literal `"://"`. -/
def schemeSep : Str := [':', '/', '/']

/-- The literal `"github.com"`. -/
def githubHost : Str := ['g', 'i', 't', 'h', 'u', 'b', '.', 'c', 'o', 'm']

/-! ## `GitSource` (src/plugin/source.rs) -/

/-- Parsed git URL components (`GitSource` in `src/plugin/source.rs`). -/
structure GitSource where
  host : Str
  owner : Str
  repo : Str
  url : Str
deriving DecidableEq

/-- `GitSource::parse_owner_repo`. -/
def GitSource.parse_owner_repo (path : Str) (host : Str) (original_url : Str) :
    Except PluginError GitSource :=
  let path1 := (stripSuffixStr gitSuffix path).getD path
  match splitn2 '/' path1 with
  | [owner, repo] =>
    if owner = [] ∨ repo = [] then .error (.InvalidUrl original_url)
    else .ok ⟨host, owner, repo, original_url⟩
  | _ => .error (.InvalidUrl original_url)

/-- `GitSource::parse_https`. -/
def GitSource.parse_https (rest : Str) (original_url : Str) :
    Except PluginError GitSource :=
  match splitn2 '/' rest with
  | [host, path] => GitSource.parse_owner_repo path host original_url
  | _ => .error (.InvalidUrl original_url)

/-- `GitSource::parse_ssh`. -/
def GitSource.parse_ssh (rest : Str) (original_url : Str) :
    Except PluginError GitSource :=
  match splitn2 ':' rest with
  | [host, path] => GitSource.parse_owner_repo path host original_url
  | _ => .error (.InvalidUrl original_url)

/-- The shorthand branch of `GitSource::parse`: `some` when the branch
returns, `none` when it falls through to the HTTPS/SSH branches. -/
def GitSource.parseShorthand (t : Str) : Option GitSource :=
  if ¬ containsStr schemeSep t ∧ ¬ gitAtPrefix.isPrefixOf t then
    match splitOnce '/' t with
    | some (owner, repo) =>
      if owner ≠ [] ∧ repo ≠ [] ∧ ¬ repo.contains '/' then
        let repo1 := (stripSuffixStr gitSuffix repo).getD repo
        some ⟨githubHost, owner, repo1,
          httpsPrefix ++ githubHost ++ '/' :: owner ++ '/' :: repo1⟩
      else none
    | none => none
  else none

/-- `GitSource::parse`. -/
def GitSource.parse (url : Str) : Except PluginError GitSource :=
  let t := strTrim url
  match GitSource.parseShorthand t with
  | some g => .ok g
  | none =>
    match stripPrefixStr httpsPrefix t with
    | some rest => GitSource.parse_https rest t
    | none =>
      match stripPrefixStr gitAtPrefix t with
      | some rest => GitSource.parse_ssh rest t
      | none => .error (.InvalidUrl url)

/-! ## Status manager (src/status.rs) -/

/-- `StatusKind` from `src/status.rs`. -/
inductive StatusKind where
  | Info
  | Progress
  | Success
  | Error
deriving DecidableEq

/-- `STATUS_DISPLAY_DURATION` (3 seconds), in abstract time units. -/
def STATUS_DISPLAY_DURATION : Nat := 3

/-- `StatusEntry`; `Instant` timestamps become abstract `Nat` time. -/
structure StatusEntry where
  id : String
  message : String
  kind : StatusKind
  created_at : Nat
deriving DecidableEq

/-- `StatusManager`. -/
structure StatusManager where
  entries : List StatusEntry
deriving DecidableEq

/-- `StatusManager::new`. -/
def StatusManager.new : StatusManager := ⟨[]⟩

/-- The in-place update of `StatusManager::add`: overwrite the first entry
with the given id, or push a fresh entry at the end. -/
def addEntry (id message : String) (kind : StatusKind) (now : Nat) :
    List StatusEntry → List StatusEntry
  | [] => [⟨id, message, kind, now⟩]
  | e :: rest =>
    if e.id = id then ⟨id, message, kind, now⟩ :: rest
    else e :: addEntry id message kind now rest

/-- `StatusManager::add`; `Instant::now()` is passed in as `now`. -/
def StatusManager.add (m : StatusManager) (id message : String)
    (kind : StatusKind) (now : Nat) : StatusManager :=
  ⟨addEntry id message kind now m.entries⟩

/-- `StatusManager::remove`. -/
def StatusManager.removeId (m : StatusManager) (id : String) : StatusManager :=
  ⟨m.entries.filter (fun e => e.id ≠ id)⟩

/-- `StatusManager::clear_expired`; `Instant::now()` is passed in as `now`
and `duration_since` is truncated subtraction, matching its saturating
behaviour for timestamps not later than `now`. -/
def StatusManager.clear_expired (m : StatusManager) (now : Nat) : StatusManager :=
  ⟨m.entries.filter
    (fun e => e.kind = StatusKind.Progress ∨ now - e.created_at < STATUS_DISPLAY_DURATION)⟩

/-- `StatusManager::is_empty`. -/
def StatusManager.isEmptyB (m : StatusManager) : Bool := m.entries.isEmpty

/-- The sort key of `get_display`: Progress 0, Error 1, Success 2, Info 3. -/
def kindPriority : StatusKind → Nat
  | .Progress => 0
  | .Error => 1
  | .Success => 2
  | .Info => 3

/-- One step of a stable insertion sort: place `e` after every element of
no greater priority, before the first strictly greater one. -/
def insertByPriority (e : StatusEntry) : List StatusEntry → List StatusEntry
  | [] => [e]
  | x :: xs =>
    if kindPriority x.kind ≤ kindPriority e.kind then x :: insertByPriority e xs
    else e :: x :: xs

/-- `Vec::sort_by_key` on the priority key: a stable sort, modelled as a
left fold of stable insertions. -/
def sortEntries (l : List StatusEntry) : List StatusEntry :=
  l.foldl (fun acc e => insertByPriority e acc) []

/-- `StatusManager::get_display`. -/
def StatusManager.get_display (m : StatusManager) : String :=
  if m.entries.isEmpty then "Ready"
  else
    let sorted_entries := sortEntries m.entries
    if ¬ sorted_entries.isEmpty then
      String.intercalate " | " (sorted_entries.map (fun e => e.message))
    else "Ready"

/-- `StatusManager::has_error`. -/
def StatusManager.has_error (m : StatusManager) : Bool :=
  m.entries.any (fun e => e.kind = StatusKind.Error)

/-- `StatusManager::has_progress`. -/
def StatusManager.has_progress (m : StatusManager) : Bool :=
  m.entries.any (fun e => e.kind = StatusKind.Progress)

/-- `StatusManager::display_kind`. -/
def StatusManager.display_kind (m : StatusManager) : StatusKind :=
  if m.has_progress then .Progress
  else if m.has_error then .Error
  else if m.entries.any (fun e => e.kind = StatusKind.Success) then .Success
  else if m.entries.isEmpty then .Success
  else .Info

/-! ## Skill scanner (src/plugin/plugin.rs) -/

/-- A directory tree as seen by `fs::read_dir`: files and subdirectories,
in directory-listing order. -/
inductive FTree where
  | file (name : String)
  | dir (name : String) (children : List FTree)

/-- `dir_name` in `src/plugin/plugin.rs` (`Path::file_name` as a `String`). -/
def dir_name (p : FPath) : Option String := p.getLast?

/-- `Path::parent`: `none` for an empty path, otherwise drop the last
component. -/
def parentPath (p : FPath) : Option FPath :=
  if p = [] then none else some p.dropLast

/-- `derive_skill_name`. -/
def derive_skill_name (root : FPath) (skill_path : FPath) : String :=
  match parentPath skill_path with
  | some parent =>
    if parent = root then (dir_name root).getD "unknown"
    else (dir_name parent).getD "unknown"
  | none => "unknown"

/-- `scan_directory`: walk the entries of `current`, recursing into
subdirectories other than `.git`/`.svn`/`.hg` and collecting
`(skill_name, path)` for every `SKILL.md` file. -/
def scanEntries (root current : FPath) : List FTree → List (String × FPath)
  | [] => []
  | FTree.dir name children :: rest =>
    (if name ≠ ".git" ∧ name ≠ ".svn" ∧ name ≠ ".hg" then
      scanEntries root (current ++ [name]) children
    else []) ++ scanEntries root current rest
  | FTree.file name :: rest =>
    (if name = "SKILL.md" then
      [(derive_skill_name root (current ++ [name]), current ++ [name])]
    else []) ++ scanEntries root current rest

/-- `scan_for_skills` on the listing of the root directory. -/
def scan_for_skills (root : FPath) (tree : List FTree) : List (String × FPath) :=
  scanEntries root root tree

/-! ## Link targets and the filesystem model (src/plugin/skill.rs) -/

/-- `LinkTarget`. -/
inductive LinkTarget where
  | ClaudeCode
  | Codex
deriving DecidableEq

/-- The filesystem state the link layer touches: the resolved home
directory (`dirs::home_dir()`), the symlink entries (location paired with
destination), and the set of existing real directories. -/
structure FS where
  home : Option FPath
  links : List (FPath × FPath)
  dirs : List FPath
deriving DecidableEq

/-- `LinkTarget::skills_dir`; the ambient `dirs::home_dir()` is passed in. -/
def LinkTarget.skills_dir (home : Option FPath) : LinkTarget → Option FPath
  | .ClaudeCode => home.map (fun h => h ++ [".claude", "skills"])
  | .Codex => home.map (fun h => h ++ [".codex", "skills"])

/-- `claude_skills_dir` in `src/plugin/skill.rs`. -/
def claude_skills_dir (home : Option FPath) : Option FPath :=
  home.map (fun h => h ++ [".claude", "skills"])

/-- `symlink_exists`: `symlink_metadata().is_ok()`, i.e. an entry is present
at the path without following symlinks (a broken symlink counts). -/
def FS.symlink_exists (fs : FS) (p : FPath) : Bool :=
  fs.links.any (fun l => l.1 == p) || fs.dirs.contains p

/-- `Path::exists`: follows a symlink at the path; a broken symlink
(destination directory gone) does not count. -/
def FS.pathExists (fs : FS) (p : FPath) : Bool :=
  match fs.links.find? (fun l => l.1 == p) with
  | some l => fs.dirs.contains l.2
  | none => fs.dirs.contains p

/-- `fs::remove_file`: removes a symlink entry; fails (with an I/O error)
when no symlink is present at the path. -/
def FS.removeFile (fs : FS) (p : FPath) : Except PluginError FS :=
  if fs.links.any (fun l => l.1 == p) then
    .ok { fs with links := fs.links.filter (fun l => !(l.1 == p)) }
  else .error .Io

/-- `fs::create_dir_all`: create the directory and all its ancestors. -/
def FS.create_dir_all (fs : FS) (p : FPath) : FS :=
  { fs with
    dirs := (List.range p.length).foldl
      (fun d i => if p.take (i + 1) ∈ d then d else p.take (i + 1) :: d) fs.dirs }

/-- `fs::remove_dir_all`: delete the directory and everything beneath it. -/
def FS.remove_dir_all (fs : FS) (p : FPath) : FS :=
  { fs with
    dirs := fs.dirs.filter (fun d => !(p.isPrefixOf d)),
    links := fs.links.filter (fun l => !(p.isPrefixOf l.1)) }

/-- Whether `d` is a directory entry directly inside `p`. -/
def isChildOf (d p : FPath) : Bool := decide (d ≠ [] ∧ d.dropLast = p)

/-- `fs::read_dir(p)?.next().is_some()`: the directory has an entry. -/
def FS.hasChild (fs : FS) (p : FPath) : Bool :=
  fs.dirs.any (fun d => isChildOf d p) || fs.links.any (fun l => isChildOf l.1 p)

/-- `fs::remove_dir`: removes an empty directory, no-op (an ignored error)
when the directory still has entries. -/
def FS.remove_dir (fs : FS) (p : FPath) : FS :=
  if fs.hasChild p then fs
  else { fs with dirs := fs.dirs.filter (fun d => !(d == p)) }

/-- `is_git_repo` in `src/plugin/git.rs`: `path.join(".git").is_dir()`. -/
def is_git_repo (fs : FS) (p : FPath) : Bool :=
  fs.dirs.contains (p ++ [".git"])

/-! ## Skill (src/plugin/skill.rs) -/

/-- `Skill`.  The `description` is parsed from the marker's front matter in
the source; no claim depends on it, so it is carried as opaque data. -/
structure Skill where
  name : String
  path : FPath
  description : Option String
  owner : String
  repo : String
deriving DecidableEq

/-- `Skill::qualified_name` (`owner:repo:skillname`). -/
def Skill.qualified_name (s : Skill) : String :=
  s.owner ++ ":" ++ s.repo ++ ":" ++ s.name

/-- `Skill::link_path_for`. -/
def Skill.link_path_for (s : Skill) (home : Option FPath) (target : LinkTarget) :
    Option FPath :=
  (target.skills_dir home).map (fun d => d ++ [s.qualified_name])

/-- `Skill::is_linked_to`. -/
def Skill.is_linked_to (s : Skill) (target : LinkTarget) (fs : FS) : Bool :=
  match s.link_path_for fs.home target with
  | some p => fs.pathExists p
  | none => false

/-- `Skill::is_linked` (Claude Code). -/
def Skill.is_linked (s : Skill) (fs : FS) : Bool :=
  s.is_linked_to .ClaudeCode fs

/-- `Skill::link_to`.  Returns the updated filesystem together with the
`Result`; an error leaves the state as it was at the failing step. -/
def Skill.link_to (s : Skill) (target : LinkTarget) (fs : FS) :
    FS × Except PluginError Unit :=
  match s.link_path_for fs.home target with
  | none => (fs, .error (.LinkFailed s.name "cannot determine home directory"))
  | some link_path =>
    if fs.symlink_exists link_path then
      (fs, .error (.AlreadyLinked s.qualified_name))
    else
      let fs1 := match parentPath link_path with
        | some parent => fs.create_dir_all parent
        | none => fs
      match parentPath s.path with
      | none => (fs1, .error (.LinkFailed s.name "invalid skill path"))
      | some skill_dir =>
        ({ fs1 with links := (link_path, skill_dir) :: fs1.links }, .ok ())

/-- `Skill::link` (Claude Code). -/
def Skill.link (s : Skill) (fs : FS) : FS × Except PluginError Unit :=
  s.link_to .ClaudeCode fs

/-- `Skill::unlink_from`. -/
def Skill.unlink_from (s : Skill) (target : LinkTarget) (fs : FS) :
    FS × Except PluginError Unit :=
  match s.link_path_for fs.home target with
  | none => (fs, .error (.NotLinked s.name))
  | some link_path =>
    if ¬ fs.symlink_exists link_path then
      (fs, .error (.NotLinked s.name))
    else
      match fs.removeFile link_path with
      | .ok fs1 => (fs1, .ok ())
      | .error e => (fs, .error e)

/-- `Skill::unlink` (Claude Code). -/
def Skill.unlink (s : Skill) (fs : FS) : FS × Except PluginError Unit :=
  s.unlink_from .ClaudeCode fs

/-- `remove_skill_symlink` in `src/plugin/skill.rs`. -/
def remove_skill_symlink (qualified_name : String) (fs : FS) :
    FS × Except PluginError Unit :=
  match claude_skills_dir fs.home with
  | none => (fs, .error (.LinkFailed qualified_name "cannot determine home directory"))
  | some skills_dir =>
    let link_path := skills_dir ++ [qualified_name]
    if fs.symlink_exists link_path then
      match fs.removeFile link_path with
      | .ok fs1 => (fs1, .ok ())
      | .error e => (fs, .error e)
    else (fs, .ok ())

/-! ## Plugin (src/plugin/plugin.rs) -/

/-- `Plugin`. -/
structure Plugin where
  host : String
  owner : String
  repo : String
  path : FPath
  skills : List Skill
deriving DecidableEq

/-- `Plugin::build` from an already-computed scan result (the source scans
the working tree; the post-pull tree contents are an input here).  The
descriptions read from marker front matter do not affect any claim and are
left empty. -/
def Plugin.build (host owner repo : String) (path : FPath)
    (scanned : List (String × FPath)) : Plugin :=
  { host := host, owner := owner, repo := repo, path := path,
    skills := scanned.map (fun nr =>
      { name := nr.1, path := nr.2, description := none,
        owner := owner, repo := repo }) }

/-- The tail of `Plugin::remove`: prune the now-empty owner directory and
then the now-empty host directory, ignoring errors. -/
def pruneParents (fs2 : FS) (path : FPath) : FS :=
  match parentPath path with
  | some owner_dir =>
    if fs2.pathExists owner_dir && !(fs2.hasChild owner_dir) then
      match parentPath owner_dir with
      | some host_dir =>
        if (fs2.remove_dir owner_dir).pathExists host_dir
            && !((fs2.remove_dir owner_dir).hasChild host_dir) then
          (fs2.remove_dir owner_dir).remove_dir host_dir
        else fs2.remove_dir owner_dir
      | none => fs2.remove_dir owner_dir
    else fs2
  | none => fs2

/-- `Plugin::remove`. -/
def Plugin.remove (p : Plugin) (fs : FS) : FS × Except PluginError Unit :=
  if ¬ fs.pathExists p.path then
    (fs, .error (.NotInstalled p.repo))
  else
    (pruneParents
      ((p.skills.foldl (fun f s => (s.unlink f).1) fs).remove_dir_all p.path)
      p.path,
     .ok ())

/-- The `HashMap` of `(qualified_name, path)` built in `Plugin::update`:
collecting into a `HashMap` lets a later pair with the same key overwrite
an earlier one, so lookup finds the last occurrence. -/
def lookupLast (name : String) (l : List (String × FPath)) : Option FPath :=
  (l.reverse.find? (fun x => x.1 == name)).map (fun x => x.2)

/-- One iteration of the reconciliation loop in `Plugin::update`, for a
previously linked `(qualified_name, old_path)` snapshot entry. -/
def reconcileOne (new_plugin : Plugin) (f : FS) (nr : String × FPath) : FS :=
  match lookupLast nr.1 (new_plugin.skills.map (fun s => (s.qualified_name, s.path))) with
  | none => (remove_skill_symlink nr.1 f).1
  | some new_path =>
    if new_path ≠ nr.2 then
      let f1 := (remove_skill_symlink nr.1 f).1
      match new_plugin.skills.find? (fun s => s.qualified_name == nr.1) with
      | some sk => (sk.link f1).1
      | none => f1
    else f

/-- `Plugin::update`.  The external `git pull` outcome and the post-pull
scan result are inputs; everything else follows the source. -/
def Plugin.update (p : Plugin) (pull : Except Str Unit)
    (newScan : List (String × FPath)) (fs : FS) : FS × Except PluginError Plugin :=
  if ¬ is_git_repo fs p.path then
    (fs, .error (.UpdateFailed p.path ("plugin is not installed".data)))
  else
    let linked_before : List (String × FPath) :=
      (p.skills.filter (fun s => s.is_linked fs)).map
        (fun s => (s.qualified_name, s.path))
    match pull with
    | .error stderr => (fs, .error (.UpdateFailed p.path stderr))
    | .ok _ =>
      let new_plugin := Plugin.build p.host p.owner p.repo p.path newScan
      let fs1 := linked_before.foldl (reconcileOne new_plugin) fs
      (fs1, .ok new_plugin)

/-! ## Statement-level definitions -/

/-- The Claude Code link path of a qualified name under home `h`:
`<home>/.claude/skills/<qualified_name>`. -/
def claudeLinkPath (h : FPath) (qn : String) : FPath :=
  h ++ [".claude", "skills", qn]

/-- The fixed VCS exclusion set of the scanner. -/
def vcsNames : List String := [".git", ".svn", ".hg"]

/-- A `SKILL.md` marker exists in the forest at the given relative path
(directory components followed by the final `"SKILL.md"`), with no
VCS filtering. -/
inductive HasMarker : List FTree → List String → Prop where
  | here {ts : List FTree} :
      FTree.file "SKILL.md" ∈ ts → HasMarker ts ["SKILL.md"]
  | there {ts : List FTree} {name : String} {children : List FTree}
      {rel : List String} :
      FTree.dir name children ∈ ts → HasMarker children rel →
      HasMarker ts (name :: rel)

/-- Characters that cannot collide with the URL syntax: not a separator
(`/`, `:`, `@`) and not whitespace. -/
def urlSafeChar (c : Char) : Prop :=
  c ≠ '/' ∧ c ≠ ':' ∧ c ≠ '@' ∧ c.isWhitespace = false

/-- A well-formed owner/repo/host segment: nonempty and made of
URL-safe characters. -/
def segOk (s : Str) : Prop :=
  s ≠ [] ∧ ∀ c ∈ s, urlSafeChar c

instance : DecidablePred urlSafeChar := fun c => by
  unfold urlSafeChar
  infer_instance

instance (s : Str) : Decidable (segOk s) := by
  unfold segOk
  infer_instance

/-! ## Lemmas about the status manager -/

theorem addEntry_map_id (id message : String) (kind : StatusKind) (now : Nat)
    (l : List StatusEntry) :
    (addEntry id message kind now l).map (fun e => e.id) =
      if id ∈ l.map (fun e => e.id) then l.map (fun e => e.id)
      else l.map (fun e => e.id) ++ [id] := by
  induction l with
  | nil => simp [addEntry]
  | cons e rest ih =>
    by_cases h : e.id = id
    · simp [addEntry, h]
    · simp only [addEntry, if_neg h, List.map_cons, ih]
      by_cases hm : id ∈ rest.map (fun e => e.id)
      · simp [hm, Ne.symm h]
      · simp [hm, Ne.symm h]

theorem addEntry_nodup (id message : String) (kind : StatusKind) (now : Nat)
    (l : List StatusEntry) (h : (l.map (fun e => e.id)).Nodup) :
    ((addEntry id message kind now l).map (fun e => e.id)).Nodup := by
  rw [addEntry_map_id]
  by_cases hm : id ∈ l.map (fun e => e.id)
  · simpa [hm]
  · simpa [hm, List.nodup_append] using h

theorem addEntry_of_mem (id message : String) (kind : StatusKind) (now : Nat)
    (l : List StatusEntry) (h : ∃ e ∈ l, e.id = id) :
    ∃ pre e post, l = pre ++ e :: post ∧ (∀ x ∈ pre, x.id ≠ id) ∧ e.id = id ∧
      addEntry id message kind now l = pre ++ ⟨id, message, kind, now⟩ :: post := by
  induction l with
  | nil => simp at h
  | cons e rest ih =>
    by_cases he : e.id = id
    · exact ⟨[], e, rest, by simp, by simp, he, by simp [addEntry, he]⟩
    · obtain ⟨x, hx, hxid⟩ := h
      rcases List.mem_cons.mp hx with rfl | hx'
      · exact absurd hxid he
      · obtain ⟨pre, y, post, h1, h2, h3, h4⟩ := ih ⟨x, hx', hxid⟩
        refine ⟨e :: pre, y, post, by simp [h1], ?_, h3, by simp [addEntry, he, h4]⟩
        intro z hz
        rcases List.mem_cons.mp hz with rfl | hz'
        · exact he
        · exact h2 z hz'

/-- Claim C7: the status aggregator keeps at most one entry per id: any
sequence of `add` operations starting from an empty manager yields
pairwise-distinct ids; adding with an id already present overwrites that
entry's message, kind and timestamp in place, without growing the list;
and adding `("x","m1",Progress)` then `("x","m2",Success)` leaves exactly
one entry whose message is `"m2"`. -/
theorem statusManager_add_upsert :
    (∀ ops : List (String × String × StatusKind × Nat),
      ((ops.foldl (fun m o => m.add o.1 o.2.1 o.2.2.1 o.2.2.2)
          StatusManager.new).entries.map (fun e => e.id)).Nodup)
    ∧ (∀ (m : StatusManager) (id message : String) (kind : StatusKind) (now : Nat),
        (∃ e ∈ m.entries, e.id = id) →
          (m.add id message kind now).entries.length = m.entries.length
          ∧ ∃ pre e post, m.entries = pre ++ e :: post ∧ (∀ x ∈ pre, x.id ≠ id)
              ∧ e.id = id
              ∧ (m.add id message kind now).entries =
                  pre ++ ⟨id, message, kind, now⟩ :: post)
    ∧ ((StatusManager.new.add "x" "m1" .Progress 0).add "x" "m2" .Success 1).entries
        = [⟨"x", "m2", .Success, 1⟩] := by
  refine ⟨?_, ?_, by decide⟩
  · intro ops
    suffices h : ∀ (ops : List (String × String × StatusKind × Nat)) (m : StatusManager),
        (m.entries.map (fun e => e.id)).Nodup →
        ((ops.foldl (fun m o => m.add o.1 o.2.1 o.2.2.1 o.2.2.2) m).entries.map
          (fun e => e.id)).Nodup by
      exact h ops StatusManager.new (by simp [StatusManager.new])
    intro ops
    induction ops with
    | nil => intro m hm; simpa using hm
    | cons o rest ih =>
      intro m hm
      exact ih _ (addEntry_nodup _ _ _ _ _ hm)
  · intro m id message kind now h
    obtain ⟨pre, e, post, h1, h2, h3, h4⟩ := addEntry_of_mem id message kind now m.entries h
    constructor
    · show (addEntry id message kind now m.entries).length = _
      rw [h4, h1]; simp
    · exact ⟨pre, e, post, h1, h2, h3, h4⟩

/-- Witness for C7 at a concrete manager whose entry id `"x"` is present. -/
theorem statusManager_add_upsert_witness :
    (StatusManager.add ⟨[⟨"x", "m1", .Progress, 0⟩]⟩ "x" "m2" .Success 1).entries.length
      = (StatusManager.mk [⟨"x", "m1", .Progress, 0⟩]).entries.length :=
  (statusManager_add_upsert.2.1 ⟨[⟨"x", "m1", .Progress, 0⟩]⟩ "x" "m2" .Success 1
    ⟨⟨"x", "m1", .Progress, 0⟩, by simp⟩).1

/-- Claim C9: `clear_expired` retains exactly the entries that are either
`Progress` or younger than the display duration, so a `Progress` entry is
never removed by `clear_expired`, regardless of its age. -/
theorem statusManager_clear_expired_spec :
    ∀ (m : StatusManager) (now : Nat),
      (∀ e ∈ m.entries, e.kind = .Progress → e ∈ (m.clear_expired now).entries)
      ∧ (∀ e, e ∈ (m.clear_expired now).entries ↔
          e ∈ m.entries ∧ (e.kind = .Progress
            ∨ now - e.created_at < STATUS_DISPLAY_DURATION)) := by
  intro m now
  constructor
  · intro e he hk
    simp [StatusManager.clear_expired, List.mem_filter, he, hk]
  · intro e
    simp [StatusManager.clear_expired, List.mem_filter]

/-- Witness for C9: a three-units-old `Progress` entry survives
`clear_expired` at time 100. -/
theorem statusManager_clear_expired_witness :
    (⟨"p", "installing", .Progress, 0⟩ : StatusEntry) ∈
      ((⟨[⟨"p", "installing", .Progress, 0⟩]⟩ : StatusManager).clear_expired 100).entries :=
  (statusManager_clear_expired_spec ⟨[⟨"p", "installing", .Progress, 0⟩]⟩ 100).1
    ⟨"p", "installing", .Progress, 0⟩ (by simp) rfl

/-- The display ordering on entries: lower priority number first. -/
def entryLe (a b : StatusEntry) : Prop :=
  kindPriority a.kind ≤ kindPriority b.kind

theorem insertByPriority_perm (e : StatusEntry) (l : List StatusEntry) :
    List.Perm (insertByPriority e l) (e :: l) := by
  induction l with
  | nil => simp [insertByPriority]
  | cons x xs ih =>
    by_cases h : kindPriority x.kind ≤ kindPriority e.kind
    · simp only [insertByPriority, if_pos h]
      exact (ih.cons x).trans (List.Perm.swap e x xs)
    · simp [insertByPriority, h]

theorem sortEntries_perm (l : List StatusEntry) :
    List.Perm (sortEntries l) l := by
  suffices h : ∀ (l acc : List StatusEntry),
      List.Perm (l.foldl (fun acc e => insertByPriority e acc) acc) (acc ++ l) by
    simpa using h l []
  intro l
  induction l with
  | nil => intro acc; simp
  | cons e rest ih =>
    intro acc
    refine (ih (insertByPriority e acc)).trans ?_
    refine (((insertByPriority_perm e acc).append_right rest).trans ?_)
    exact List.perm_middle.symm

theorem insertByPriority_sorted (e : StatusEntry) (l : List StatusEntry)
    (h : l.Sorted entryLe) : (insertByPriority e l).Sorted entryLe := by
  induction l with
  | nil => simp [insertByPriority, List.Sorted]
  | cons x xs ih =>
    rw [List.sorted_cons] at h
    obtain ⟨h1, h2⟩ := h
    by_cases hx : kindPriority x.kind ≤ kindPriority e.kind
    · simp only [insertByPriority, if_pos hx]
      rw [List.sorted_cons]
      refine ⟨?_, ih h2⟩
      intro b hb
      have hb' := (insertByPriority_perm e xs).mem_iff.mp hb
      rcases List.mem_cons.mp hb' with rfl | hbx
      · exact hx
      · exact h1 b hbx
    · simp only [insertByPriority, if_neg hx]
      rw [List.sorted_cons]
      refine ⟨?_, by rw [List.sorted_cons]; exact ⟨h1, h2⟩⟩
      intro b hb
      have he : kindPriority e.kind ≤ kindPriority x.kind := Nat.le_of_not_le hx
      rcases List.mem_cons.mp hb with rfl | hbx
      · exact he
      · exact Nat.le_trans he (h1 b hbx)

theorem sortEntries_sorted (l : List StatusEntry) :
    (sortEntries l).Sorted entryLe := by
  suffices h : ∀ (l acc : List StatusEntry), acc.Sorted entryLe →
      (l.foldl (fun acc e => insertByPriority e acc) acc).Sorted entryLe by
    exact h l [] (by simp [List.Sorted])
  intro l
  induction l with
  | nil => intro acc hacc; simpa using hacc
  | cons e rest ih =>
    intro acc hacc
    exact ih _ (insertByPriority_sorted e acc hacc)

/-- Claim C8: the rendered display is the messages of all current entries
joined by the separator in kind-priority order (Progress, Error, Success,
Info); an empty aggregator renders as `"Ready"`; `display_kind` is the
highest-priority kind present, or the ready kind (`Success`) when empty;
and with all four kinds present the rendered order is Progress, Error,
Success, Info. -/
theorem statusManager_display_spec :
    (∀ m : StatusManager,
      (m.entries = [] → m.get_display = "Ready" ∧ m.display_kind = .Success)
      ∧ (m.entries ≠ [] →
          m.get_display =
            String.intercalate " | " ((sortEntries m.entries).map (fun e => e.message))
          ∧ List.Perm (sortEntries m.entries) m.entries
          ∧ (sortEntries m.entries).Sorted entryLe
          ∧ m.display_kind ∈ m.entries.map (fun e => e.kind)
          ∧ ∀ e ∈ m.entries, kindPriority m.display_kind ≤ kindPriority e.kind))
    ∧ (StatusManager.mk [⟨"i", "I", .Info, 0⟩, ⟨"s", "S", .Success, 0⟩,
        ⟨"p", "P", .Progress, 0⟩, ⟨"e", "E", .Error, 0⟩]).get_display
        = "P | E | S | I" := by
  refine ⟨?_, by decide⟩
  intro m
  constructor
  · intro hnil
    obtain ⟨entries⟩ := m
    simp only at hnil
    subst hnil
    exact ⟨rfl, rfl⟩
  · intro hne
    have hperm := sortEntries_perm m.entries
    have hemp : m.entries.isEmpty = false := by
      simpa [List.isEmpty_iff] using hne
    have hsne : (sortEntries m.entries).isEmpty = false := by
      rw [Bool.eq_false_iff]
      intro hs
      rw [List.isEmpty_iff] at hs
      rw [hs] at hperm
      exact hne hperm.symm.eq_nil
    refine ⟨?_, hperm, sortEntries_sorted m.entries, ?_⟩
    · simp [StatusManager.get_display, hemp, hsne]
    · have hkind : ∀ k : StatusKind,
          (m.entries.any (fun e => e.kind = k)) = true ↔
            ∃ e ∈ m.entries, e.kind = k := by
        intro k
        simp [List.any_eq_true]
      by_cases hp : m.has_progress
      · obtain ⟨e, he, hek⟩ := (hkind .Progress).mp hp
        have hd : m.display_kind = .Progress := by
          simp [StatusManager.display_kind, hp]
        rw [hd]
        exact ⟨List.mem_map.mpr ⟨e, he, hek⟩, fun x _ => Nat.zero_le _⟩
      · have hnp : ∀ e ∈ m.entries, e.kind ≠ .Progress := by
          intro e he hk
          exact hp ((hkind .Progress).mpr ⟨e, he, hk⟩)
        by_cases herr : m.has_error
        · obtain ⟨e, he, hek⟩ := (hkind .Error).mp herr
          have hd : m.display_kind = .Error := by
            simp [StatusManager.display_kind, hp, herr]
          rw [hd]
          refine ⟨List.mem_map.mpr ⟨e, he, hek⟩, ?_⟩
          intro x hx
          have := hnp x hx
          cases hxk : x.kind <;> simp_all [kindPriority]
        · have hnerr : ∀ e ∈ m.entries, e.kind ≠ .Error := by
            intro e he hk
            exact herr ((hkind .Error).mpr ⟨e, he, hk⟩)
          by_cases hs : m.entries.any (fun e => e.kind = StatusKind.Success)
          · obtain ⟨e, he, hek⟩ := (hkind .Success).mp hs
            have hd : m.display_kind = .Success := by
              simp [StatusManager.display_kind, hp, herr, hs]
            rw [hd]
            refine ⟨List.mem_map.mpr ⟨e, he, hek⟩, ?_⟩
            intro x hx
            have h1 := hnp x hx
            have h2 := hnerr x hx
            cases hxk : x.kind <;> simp_all [kindPriority]
          · have hns : ∀ e ∈ m.entries, e.kind ≠ .Success := by
              intro e he hk
              exact hs ((hkind .Success).mpr ⟨e, he, hk⟩)
            have hinfo : ∀ e ∈ m.entries, e.kind = .Info := by
              intro e he
              have h1 := hnp e he
              have h2 := hnerr e he
              have h3 := hns e he
              cases hek : e.kind <;> simp_all
            have hd : m.display_kind = .Info := by
              simp [StatusManager.display_kind, hp, herr, hs, hemp]
            rw [hd]
            obtain ⟨e, he⟩ := List.exists_mem_of_ne_nil m.entries hne
            refine ⟨List.mem_map.mpr ⟨e, he, hinfo e he⟩, ?_⟩
            intro x hx
            rw [hinfo x hx]

/-- Witness for C8 at a concrete nonempty manager. -/
theorem statusManager_display_spec_witness :
    (StatusManager.mk [⟨"a", "A", .Info, 0⟩]).display_kind ∈
      (StatusManager.mk [⟨"a", "A", .Info, 0⟩]).entries.map (fun e => e.kind) :=
  ((statusManager_display_spec.1 ⟨[⟨"a", "A", .Info, 0⟩]⟩).2 (by simp)).2.2.2.1

/-! ## Link-layer lemmas -/

/-- Claim C10: `is_linked_to` is total — when no home directory can be
resolved it returns `false` instead of failing — while in the same
situation `link_to` fails with `LinkFailed` and `unlink_from` fails with
`NotLinked` (each leaving the filesystem untouched). -/
theorem skill_is_linked_total_no_home :
    ∀ (s : Skill) (t : LinkTarget) (fs : FS), fs.home = none →
      s.is_linked_to t fs = false
      ∧ s.link_to t fs
          = (fs, .error (.LinkFailed s.name "cannot determine home directory"))
      ∧ s.unlink_from t fs = (fs, .error (.NotLinked s.name)) := by
  intro s t fs h
  have hlp : s.link_path_for fs.home t = none := by
    rw [h]
    cases t <;> simp [Skill.link_path_for, LinkTarget.skills_dir]
  refine ⟨?_, ?_, ?_⟩
  · simp [Skill.is_linked_to, hlp]
  · simp [Skill.link_to, hlp]
  · simp [Skill.unlink_from, hlp]

/-- Witness for C10 on a concrete filesystem without a home directory. -/
theorem skill_is_linked_total_no_home_witness :
    Skill.is_linked_to ⟨"foo", ["r", "foo", "SKILL.md"], none, "o", "r"⟩
      .Codex ⟨none, [], [["r"]]⟩ = false :=
  (skill_is_linked_total_no_home ⟨"foo", ["r", "foo", "SKILL.md"], none, "o", "r"⟩
    .Codex ⟨none, [], [["r"]]⟩ rfl).1

theorem foldl_addDir_mem (g : Nat → FPath) (idx : List Nat) (d0 : List FPath)
    (q : FPath) :
    q ∈ idx.foldl (fun d i => if g i ∈ d then d else g i :: d) d0 ↔
      q ∈ d0 ∨ ∃ i ∈ idx, q = g i := by
  induction idx generalizing d0 with
  | nil => simp
  | cons i rest ih =>
    rw [List.foldl_cons, ih]
    by_cases hgi : g i ∈ d0
    · simp only [if_pos hgi, List.mem_cons]
      constructor
      · rintro (hq | ⟨j, hj, rfl⟩)
        · exact Or.inl hq
        · exact Or.inr ⟨j, Or.inr hj, rfl⟩
      · rintro (hq | ⟨j, hj | hj, rfl⟩)
        · exact Or.inl hq
        · subst hj; exact Or.inl hgi
        · exact Or.inr ⟨j, hj, rfl⟩
    · simp only [if_neg hgi, List.mem_cons]
      constructor
      · rintro (hq | ⟨j, hj, rfl⟩)
        · rcases hq with rfl | hq
          · exact Or.inr ⟨i, Or.inl rfl, rfl⟩
          · exact Or.inl hq
        · exact Or.inr ⟨j, Or.inr hj, rfl⟩
      · rintro (hq | ⟨j, hj, rfl⟩)
        · exact Or.inl (Or.inr hq)
        · rcases hj with rfl | hj'
          · exact Or.inl (Or.inl rfl)
          · exact Or.inr ⟨j, hj', rfl⟩

theorem create_dir_all_mem (fs : FS) (p q : FPath) :
    q ∈ (fs.create_dir_all p).dirs ↔
      q ∈ fs.dirs ∨ ∃ i ∈ List.range p.length, q = p.take (i + 1) := by
  exact foldl_addDir_mem (fun i => p.take (i + 1)) (List.range p.length) fs.dirs q

theorem create_dir_all_self_mem (fs : FS) (p : FPath) (hp : p ≠ []) :
    p ∈ (fs.create_dir_all p).dirs := by
  rw [create_dir_all_mem]
  refine Or.inr ⟨p.length - 1, ?_, ?_⟩
  · rw [List.mem_range]
    have := List.length_pos.mpr hp
    omega
  · have := List.length_pos.mpr hp
    have h1 : p.length - 1 + 1 = p.length := by omega
    rw [h1, List.take_length]

theorem create_dir_all_links (fs : FS) (p : FPath) :
    (fs.create_dir_all p).links = fs.links := rfl

theorem create_dir_all_home (fs : FS) (p : FPath) :
    (fs.create_dir_all p).home = fs.home := rfl

theorem skills_dir_some (h : FPath) (t : LinkTarget) :
    ∃ d, LinkTarget.skills_dir (some h) t = some d ∧ d ≠ [] := by
  cases t
  · exact ⟨h ++ [".claude", "skills"], rfl, by simp⟩
  · exact ⟨h ++ [".codex", "skills"], rfl, by simp⟩

/-- Claim C3: given a resolvable home (so a link path exists) and a marker
path with a parent, `link_to` fails with `AlreadyLinked` — leaving the
state untouched — exactly when any entry (broken symlinks included)
occupies the link path; otherwise it succeeds, creating the target
directory and a symlink from the link path to the marker's parent
directory.  `unlink_from` fails with `NotLinked` exactly when no entry is
at the link path (leaving the state untouched); when the occupant is a
symlink entry it removes exactly that entry. -/
theorem skill_link_unlink_spec :
    ∀ (s : Skill) (t : LinkTarget) (fs : FS) (h : FPath),
      fs.home = some h → s.path ≠ [] →
      ∃ lp, s.link_path_for fs.home t = some lp ∧
        ((s.link_to t fs).2 = .error (.AlreadyLinked s.qualified_name)
            ↔ fs.symlink_exists lp = true)
        ∧ (fs.symlink_exists lp = true →
            s.link_to t fs = (fs, .error (.AlreadyLinked s.qualified_name)))
        ∧ (fs.symlink_exists lp = false →
            (s.link_to t fs).2 = .ok ()
            ∧ lp.dropLast ∈ (s.link_to t fs).1.dirs
            ∧ (lp, s.path.dropLast) ∈ (s.link_to t fs).1.links
            ∧ ∀ l ∈ fs.links, l ∈ (s.link_to t fs).1.links)
        ∧ ((s.unlink_from t fs).2 = .error (.NotLinked s.name)
            ↔ fs.symlink_exists lp = false)
        ∧ (fs.symlink_exists lp = false → (s.unlink_from t fs).1 = fs)
        ∧ ((∃ d, (lp, d) ∈ fs.links) →
            (s.unlink_from t fs).2 = .ok ()
            ∧ (s.unlink_from t fs).1.links
                = fs.links.filter (fun l => !(l.1 == lp))) := by
  intro s t fs h hh hsp
  obtain ⟨sdir, hsd, hsdne⟩ := skills_dir_some h t
  have hlp : s.link_path_for fs.home t = some (sdir ++ [s.qualified_name]) := by
    rw [Skill.link_path_for, hh, hsd]
    rfl
  set lp := sdir ++ [s.qualified_name] with hlpdef
  have hlpne : lp ≠ [] := by simp [hlpdef]
  have hdrop : lp.dropLast = sdir := by
    rw [hlpdef, List.dropLast_append_of_ne_nil _ (by simp)]
    simp
  have hparent : parentPath lp = some sdir := by
    rw [parentPath, if_neg hlpne, hdrop]
  have hspp : parentPath s.path = some s.path.dropLast := by
    rw [parentPath, if_neg hsp]
  refine ⟨lp, hlp, ?_⟩
  by_cases hse : fs.symlink_exists lp
  · have hlink : s.link_to t fs = (fs, .error (.AlreadyLinked s.qualified_name)) := by
      rw [Skill.link_to, hlp]
      simp [hse]
    have hul : (s.unlink_from t fs).2 ≠ .error (.NotLinked s.name)
        ∧ ((∃ d, (lp, d) ∈ fs.links) →
            (s.unlink_from t fs).2 = .ok ()
            ∧ (s.unlink_from t fs).1.links
                = fs.links.filter (fun l => !(l.1 == lp))) := by
      rw [Skill.unlink_from, hlp]
      simp only [hse, not_true_eq_false, if_false, ite_false]
      rcases hrf : fs.removeFile lp with e | fs1
      · constructor
        · have : e = PluginError.Io := by
            rw [FS.removeFile] at hrf
            split at hrf
            · exact absurd hrf (by simp)
            · exact (Except.error.inj hrf).symm
          simp [this]
        · intro ⟨d, hd⟩
          rw [FS.removeFile] at hrf
          have hany : fs.links.any (fun l => l.1 == lp) = true := by
            rw [List.any_eq_true]
            exact ⟨(lp, d), hd, by simp⟩
          rw [if_pos hany] at hrf
          exact absurd hrf (by simp)
      · constructor
        · simp
        · intro _
          rw [FS.removeFile] at hrf
          split at hrf
          · refine ⟨by simp, ?_⟩
            have := Except.ok.inj hrf
            simp [← this]
          · exact absurd hrf (by simp)
    refine ⟨?_, fun _ => hlink, fun hc => absurd hse (by simp [hc]), ?_, ?_, hul.2⟩
    · rw [hlink]
      simp [hse]
    · constructor
      · intro hne
        exact absurd (hul.1 hne) (fun hx => hx)
      · intro hc
        exact absurd hse (by simp [hc])
    · intro hc
      exact absurd hse (by simp [hc])
  · have hse' : fs.symlink_exists lp = false := by
      simpa using hse
    have hlink : s.link_to t fs =
        ({ fs.create_dir_all sdir with
            links := (lp, s.path.dropLast) :: (fs.create_dir_all sdir).links }, .ok ()) := by
      rw [Skill.link_to, hlp]
      simp only [hse', Bool.false_eq_true, if_false, hparent, hspp]
    have hunlink : s.unlink_from t fs = (fs, .error (.NotLinked s.name)) := by
      rw [Skill.unlink_from, hlp]
      simp [hse']
    refine ⟨?_, fun hc => absurd hc (by simp [hse']), ?_, ?_, fun _ => by rw [hunlink], ?_⟩
    · rw [hlink]
      simp [hse']
    · intro _
      rw [hlink]
      refine ⟨rfl, ?_, ?_, ?_⟩
      · rw [hdrop]
        exact create_dir_all_self_mem fs sdir hsdne
      · simp
      · intro l hl
        simp only [List.mem_cons]
        exact Or.inr (by rw [create_dir_all_links]; exact hl)
    · rw [hunlink]
      simp [hse']
    · intro ⟨d, hd⟩
      exfalso
      rw [FS.symlink_exists] at hse'
      have : fs.links.any (fun l => l.1 == lp) = true := by
        rw [List.any_eq_true]
        exact ⟨(lp, d), hd, by simp⟩
      simp [this] at hse'

/-- Witness for C3: linking a concrete skill into an empty filesystem with
home `["home"]` succeeds. -/
theorem skill_link_unlink_spec_witness :
    (Skill.link_to ⟨"foo", ["r", "foo", "SKILL.md"], none, "o", "r"⟩ .ClaudeCode
      ⟨some ["home"], [], []⟩).2 = .ok () := by
  obtain ⟨lp, hlp, _, _, h3, _⟩ :=
    skill_link_unlink_spec ⟨"foo", ["r", "foo", "SKILL.md"], none, "o", "r"⟩
      .ClaudeCode ⟨some ["home"], [], []⟩ ["home"] rfl (by decide)
  have hl : lp = ["home", ".claude", "skills", "o:r:foo"] := by
    have h0 : Skill.link_path_for ⟨"foo", ["r", "foo", "SKILL.md"], none, "o", "r"⟩
        (some ["home"]) .ClaudeCode = some ["home", ".claude", "skills", "o:r:foo"] := by
      decide
    have := hlp.symm.trans h0
    exact Option.some.inj this
  exact (h3 (by rw [hl]; decide)).1

theorem claude_link_path_eq (s : Skill) (h : FPath) :
    s.link_path_for (some h) .ClaudeCode = some (claudeLinkPath h s.qualified_name) := by
  rw [Skill.link_path_for, LinkTarget.skills_dir]
  show some ((h ++ [".claude", "skills"]) ++ [s.qualified_name]) = _
  rw [List.append_assoc]
  rfl

theorem unlink_cases (s : Skill) (fs : FS) :
    (s.unlink fs).1.dirs = fs.dirs ∧ (s.unlink fs).1.home = fs.home ∧
    (((s.unlink fs).1.links = fs.links
        ∧ ∀ h, fs.home = some h → ∀ d,
            (claudeLinkPath h s.qualified_name, d) ∉ fs.links)
      ∨ ∃ h, fs.home = some h ∧
          (s.unlink fs).1.links = fs.links.filter
            (fun l => !(l.1 == claudeLinkPath h s.qualified_name))) := by
  rcases hh : fs.home with _ | h
  · have hu : s.unlink fs = (fs, .error (.NotLinked s.name)) := by
      have hlp : s.link_path_for fs.home .ClaudeCode = none := by
        rw [hh]; rfl
      simp only [Skill.unlink, Skill.unlink_from, hlp]
    rw [hu]
    exact ⟨rfl, hh, Or.inl ⟨rfl, fun h' hh' => absurd hh' (by simp)⟩⟩
  · have hlp : s.link_path_for fs.home .ClaudeCode
        = some (claudeLinkPath h s.qualified_name) := by
      rw [hh]; exact claude_link_path_eq s h
    set lp := claudeLinkPath h s.qualified_name with hlpdef
    have hentry : ∀ h', fs.home = some h' → ∀ d,
        fs.links.any (fun l => l.1 == lp) = false →
        (claudeLinkPath h' s.qualified_name, d) ∉ fs.links := by
      intro h' hh' d hany hd
      rw [hh] at hh'
      obtain rfl := Option.some.inj hh'
      rw [List.any_eq_false] at hany
      exact hany _ hd (by simp)
    by_cases hse : fs.symlink_exists lp
    · by_cases hany : fs.links.any (fun l => l.1 == lp)
      · have hu : s.unlink fs =
            ({ fs with links := fs.links.filter (fun l => !(l.1 == lp)) }, .ok ()) := by
          have hrf : fs.removeFile lp =
              .ok { fs with links := fs.links.filter (fun l => !(l.1 == lp)) } := by
            rw [FS.removeFile, if_pos hany]
          simp only [Skill.unlink, Skill.unlink_from, hlp, hse, not_true_eq_false,
            if_false, hrf]
        rw [hu]
        exact ⟨rfl, hh, Or.inr ⟨h, rfl, rfl⟩⟩
      · have hu : s.unlink fs = (fs, .error .Io) := by
          have hrf : fs.removeFile lp = .error .Io := by
            rw [FS.removeFile, if_neg hany]
          simp only [Skill.unlink, Skill.unlink_from, hlp, hse, not_true_eq_false,
            if_false, hrf]
        rw [hu]
        refine ⟨rfl, hh, Or.inl ⟨rfl, ?_⟩⟩
        intro h' hh' d
        exact hentry h' (hh.trans hh') d (Bool.eq_false_iff.mpr hany)
    · have hse' : fs.symlink_exists lp = false := by simpa using hse
      have hu : s.unlink fs = (fs, .error (.NotLinked s.name)) := by
        simp only [Skill.unlink, Skill.unlink_from, hlp, hse', Bool.false_eq_true,
          not_false_eq_true, if_true]
      rw [hu]
      refine ⟨rfl, hh, Or.inl ⟨rfl, ?_⟩⟩
      intro h' hh' d
      refine hentry h' (hh.trans hh') d ?_
      rw [FS.symlink_exists] at hse'
      rcases Bool.or_eq_false_iff.mp hse' with ⟨ha, _⟩
      exact ha

theorem unlink_links_subset (s : Skill) (fs : FS) :
    ∀ l ∈ (s.unlink fs).1.links, l ∈ fs.links := by
  intro l hl
  rcases (unlink_cases s fs).2.2 with ⟨heq, _⟩ | ⟨h, _, heq⟩
  · rwa [heq] at hl
  · rw [heq] at hl
    exact (List.mem_filter.mp hl).1

theorem unlinkFold_state (skills : List Skill) (fs : FS) :
    (skills.foldl (fun f s => (s.unlink f).1) fs).dirs = fs.dirs
    ∧ (skills.foldl (fun f s => (s.unlink f).1) fs).home = fs.home
    ∧ (∀ l ∈ (skills.foldl (fun f s => (s.unlink f).1) fs).links, l ∈ fs.links)
    ∧ (∀ s ∈ skills, ∀ h, fs.home = some h → ∀ d,
        (claudeLinkPath h s.qualified_name, d)
          ∉ (skills.foldl (fun f s => (s.unlink f).1) fs).links)
    ∧ (∀ l ∈ fs.links,
        (∀ s ∈ skills, ∀ h, fs.home = some h →
          l.1 ≠ claudeLinkPath h s.qualified_name) →
        l ∈ (skills.foldl (fun f s => (s.unlink f).1) fs).links) := by
  induction skills generalizing fs with
  | nil => exact ⟨rfl, rfl, fun l hl => hl, by simp, fun l hl _ => hl⟩
  | cons s rest ih =>
    obtain ⟨ucd, uch, ucl⟩ := unlink_cases s fs
    obtain ⟨ihd, ihh, ihs, ihn, ihp⟩ := ih ((s.unlink fs).1)
    rw [List.foldl_cons]
    refine ⟨ihd.trans ucd, ihh.trans uch, ?_, ?_, ?_⟩
    · intro l hl
      exact unlink_links_subset s fs l (ihs l hl)
    · intro s0 hs0 h hh d hd
      rcases List.mem_cons.mp hs0 with rfl | hs0'
      · have hnotin : (claudeLinkPath h s0.qualified_name, d) ∉ (s0.unlink fs).1.links := by
          rcases ucl with ⟨heq, hno⟩ | ⟨h', hh', heq⟩
          · rw [heq]
            exact hno h hh d
          · rw [hh] at hh'
            obtain rfl := Option.some.inj hh'
            rw [heq]
            intro hmem
            have := (List.mem_filter.mp hmem).2
            simp at this
        exact hnotin (ihs _ hd)
      · exact ihn s0 hs0' h (uch.trans hh) d hd
    · intro l hl hcond
      have hl1 : l ∈ (s.unlink fs).1.links := by
        rcases ucl with ⟨heq, _⟩ | ⟨h', hh', heq⟩
        · rwa [heq]
        · rw [heq, List.mem_filter]
          refine ⟨hl, ?_⟩
          have := hcond s (List.mem_cons_self s rest) h' hh'
          simp [this]
      refine ihp l hl1 ?_
      intro s0 hs0 h hh
      exact hcond s0 (List.mem_cons_of_mem s hs0) h (by rwa [uch] at hh)

theorem remove_dir_links (fs : FS) (p : FPath) :
    (fs.remove_dir p).links = fs.links := by
  rw [FS.remove_dir]
  split <;> rfl

theorem remove_dir_dirs_mem (fs : FS) (p q : FPath)
    (h : q ∈ (fs.remove_dir p).dirs) : q ∈ fs.dirs := by
  rw [FS.remove_dir] at h
  split at h
  · exact h
  · exact (List.mem_filter.mp h).1

theorem pruneParents_links (fs : FS) (path : FPath) :
    (pruneParents fs path).links = fs.links := by
  rw [pruneParents]
  split
  · split
    · split
      · split
        · rw [remove_dir_links, remove_dir_links]
        · exact remove_dir_links _ _
      · exact remove_dir_links _ _
    · rfl
  · rfl

theorem pruneParents_dirs_mem (fs : FS) (path : FPath) :
    ∀ q ∈ (pruneParents fs path).dirs, q ∈ fs.dirs := by
  rw [pruneParents]
  split
  · split
    · split
      · split
        · exact fun q hq => remove_dir_dirs_mem _ _ q
            (remove_dir_dirs_mem _ _ q hq)
        · exact fun q hq => remove_dir_dirs_mem _ _ q hq
      · exact fun q hq => remove_dir_dirs_mem _ _ q hq
    · exact fun q hq => hq
  · exact fun q hq => hq

/-- Claim C1 (amended): `remove` requires the plugin's directory to exist,
failing with `NotInstalled` otherwise; when it proceeds it succeeds,
unlinks each of the plugin's skills from the **Claude Code** target only
(best-effort, ignoring unlink errors) before deleting the plugin
directory recursively, and leaves any other link entry that is not
located under the plugin directory — in particular a Codex link of one of
the plugin's skills — untouched. -/
theorem plugin_remove_spec :
    ∀ (p : Plugin) (fs : FS),
      (fs.pathExists p.path = false →
        p.remove fs = (fs, .error (.NotInstalled p.repo)))
      ∧ (fs.pathExists p.path = true →
          (p.remove fs).2 = .ok ()
          ∧ p.path ∉ (p.remove fs).1.dirs
          ∧ (∀ h, fs.home = some h → ∀ s ∈ p.skills, ∀ d,
              (claudeLinkPath h s.qualified_name, d) ∉ (p.remove fs).1.links)
          ∧ (∀ l ∈ fs.links,
              (∀ s ∈ p.skills, ∀ h, fs.home = some h →
                l.1 ≠ claudeLinkPath h s.qualified_name) →
              ¬ p.path <+: l.1 → l ∈ (p.remove fs).1.links)) := by
  intro p fs
  constructor
  · intro hne
    rw [Plugin.remove, if_pos (by simp [hne])]
  · intro hex
    rw [Plugin.remove, if_neg (by simp [hex])]
    obtain ⟨ufd, ufh, ufs, ufn, ufp⟩ := unlinkFold_state p.skills fs
    refine ⟨rfl, ?_, ?_, ?_⟩
    · intro hmem
      have h2 : p.path ∈ List.filter (fun d => !(List.isPrefixOf p.path d))
          (p.skills.foldl (fun f s => (s.unlink f).1) fs).dirs :=
        pruneParents_dirs_mem _ _ _ hmem
      have h3 := (List.mem_filter.mp h2).2
      rw [Bool.not_eq_true'] at h3
      have h4 : List.isPrefixOf p.path p.path = true :=
        List.isPrefixOf_iff_prefix.mpr (List.prefix_refl _)
      rw [h3] at h4
      cases h4
    · intro h hh s hs d hd
      rw [pruneParents_links] at hd
      have h5 : (claudeLinkPath h s.qualified_name, d) ∈
          List.filter (fun l => !(List.isPrefixOf p.path l.1))
            (p.skills.foldl (fun f s => (s.unlink f).1) fs).links := hd
      exact ufn s hs h hh d (List.mem_filter.mp h5).1
    · intro l hl hcond hpre
      rw [pruneParents_links]
      show l ∈ List.filter (fun l => !(List.isPrefixOf p.path l.1))
        (p.skills.foldl (fun f s => (s.unlink f).1) fs).links
      rw [List.mem_filter]
      refine ⟨ufp l hl hcond, ?_⟩
      rw [Bool.not_eq_true']
      exact Bool.eq_false_iff.mpr
        (fun hc => hpre (List.isPrefixOf_iff_prefix.mp hc))

/-- Witness for C1 (amended) at a concrete plugin and filesystem. -/
theorem plugin_remove_spec_witness :
    (Plugin.remove ⟨"gh", "o", "r", ["cache", "gh", "o", "r"],
        [⟨"foo", ["cache", "gh", "o", "r", "foo", "SKILL.md"], none, "o", "r"⟩]⟩
      ⟨some ["home"], [], [["cache", "gh", "o", "r"]]⟩).2 = .ok () :=
  ((plugin_remove_spec ⟨"gh", "o", "r", ["cache", "gh", "o", "r"],
        [⟨"foo", ["cache", "gh", "o", "r", "foo", "SKILL.md"], none, "o", "r"⟩]⟩
      ⟨some ["home"], [], [["cache", "gh", "o", "r"]]⟩).2 (by decide)).1

/-- Counterexample to claim C1 as stated: a skill linked only to the Codex
target stays linked after a successful `remove` — the loop unlinks from
Claude Code only, so the Codex entry survives (as a now-broken symlink). -/
theorem plugin_remove_counterexample :
    Skill.is_linked_to
        ⟨"foo", ["cache", "gh", "o", "r", "foo", "SKILL.md"], none, "o", "r"⟩ .Codex
        ⟨some ["home"],
          [(["home", ".codex", "skills", "o:r:foo"], ["cache", "gh", "o", "r", "foo"])],
          [["cache", "gh", "o", "r"], ["cache", "gh", "o", "r", "foo"]]⟩ = true
    ∧ (Plugin.remove ⟨"gh", "o", "r", ["cache", "gh", "o", "r"],
          [⟨"foo", ["cache", "gh", "o", "r", "foo", "SKILL.md"], none, "o", "r"⟩]⟩
        ⟨some ["home"],
          [(["home", ".codex", "skills", "o:r:foo"], ["cache", "gh", "o", "r", "foo"])],
          [["cache", "gh", "o", "r"], ["cache", "gh", "o", "r", "foo"]]⟩).2 = .ok ()
    ∧ (Plugin.remove ⟨"gh", "o", "r", ["cache", "gh", "o", "r"],
          [⟨"foo", ["cache", "gh", "o", "r", "foo", "SKILL.md"], none, "o", "r"⟩]⟩
        ⟨some ["home"],
          [(["home", ".codex", "skills", "o:r:foo"], ["cache", "gh", "o", "r", "foo"])],
          [["cache", "gh", "o", "r"], ["cache", "gh", "o", "r", "foo"]]⟩).1.symlink_exists
        ["home", ".codex", "skills", "o:r:foo"] = true := by
  decide

/-! ## Scanner lemmas -/

theorem HasMarker.ne_nil {ts : List FTree} {rel : List String}
    (h : HasMarker ts rel) : rel ≠ [] := by
  cases h <;> simp

theorem HasMarker.cons {ts : List FTree} {rel : List String} (e : FTree)
    (h : HasMarker ts rel) : HasMarker (e :: ts) rel := by
  cases h with
  | here hm => exact HasMarker.here (List.mem_cons_of_mem e hm)
  | there hm hc => exact HasMarker.there (List.mem_cons_of_mem e hm) hc

theorem scanEntries_sound (root : FPath) (ts : List FTree) (cur : FPath) :
    ∀ x ∈ scanEntries root cur ts,
      ∃ rel, x.2 = cur ++ rel ∧ HasMarker ts rel
        ∧ (∀ c ∈ rel.dropLast, c ∉ vcsNames)
        ∧ x.1 = derive_skill_name root x.2 := by
  cases ts with
  | nil =>
    intro x hx
    simp [scanEntries] at hx
  | cons e rest =>
    cases e with
    | dir name children =>
      intro x hx
      rw [scanEntries] at hx
      rcases List.mem_append.mp hx with hx1 | hx2
      · split at hx1
        · rename_i hcond
          obtain ⟨rel, h1, h2, h3, h4⟩ :=
            scanEntries_sound root children (cur ++ [name]) x hx1
          refine ⟨name :: rel, ?_, ?_, ?_, h4⟩
          · rw [h1, List.append_assoc]
            rfl
          · exact HasMarker.there (List.mem_cons_self _ _) h2
          · intro c hc
            rw [List.dropLast_cons_of_ne_nil h2.ne_nil] at hc
            rcases List.mem_cons.mp hc with rfl | hc'
            · simp only [vcsNames, List.mem_cons, List.mem_singleton]
              push_neg
              exact ⟨hcond.1, hcond.2.1, by simpa using hcond.2.2⟩
            · exact h3 c hc'
        · simp at hx1
      · obtain ⟨rel, h1, h2, h3, h4⟩ := scanEntries_sound root rest cur x hx2
        exact ⟨rel, h1, h2.cons _, h3, h4⟩
    | file name =>
      intro x hx
      rw [scanEntries] at hx
      rcases List.mem_append.mp hx with hx1 | hx2
      · split at hx1
        · rename_i hcond
          subst hcond
          rw [List.mem_singleton] at hx1
          subst hx1
          exact ⟨["SKILL.md"], rfl, HasMarker.here (List.mem_cons_self _ _),
            by simp, rfl⟩
        · simp at hx1
      · obtain ⟨rel, h1, h2, h3, h4⟩ := scanEntries_sound root rest cur x hx2
        exact ⟨rel, h1, h2.cons _, h3, h4⟩
termination_by sizeOf ts
decreasing_by
  all_goals simp
  all_goals omega

theorem mem_scan_of_file (root : FPath) :
    ∀ (ts : List FTree) (cur : FPath), FTree.file "SKILL.md" ∈ ts →
      (derive_skill_name root (cur ++ ["SKILL.md"]), cur ++ ["SKILL.md"])
        ∈ scanEntries root cur ts := by
  intro ts
  induction ts with
  | nil => intro cur h; simp at h
  | cons e rest ih =>
    intro cur h
    rcases List.mem_cons.mp h with rfl | h'
    · rw [scanEntries]
      apply List.mem_append.mpr
      left
      simp
    · cases e with
      | dir name children =>
        rw [scanEntries]
        exact List.mem_append.mpr (Or.inr (ih cur h'))
      | file name =>
        rw [scanEntries]
        exact List.mem_append.mpr (Or.inr (ih cur h'))

theorem mem_scan_sub (root : FPath) (name : String) (children : List FTree)
    (hgit : name ≠ ".git") (hsvn : name ≠ ".svn") (hhg : name ≠ ".hg") :
    ∀ (ts : List FTree) (cur : FPath), FTree.dir name children ∈ ts →
      ∀ x ∈ scanEntries root (cur ++ [name]) children, x ∈ scanEntries root cur ts := by
  intro ts
  induction ts with
  | nil => intro cur h; simp at h
  | cons e rest ih =>
    intro cur h x hx
    rcases List.mem_cons.mp h with rfl | h'
    · rw [scanEntries]
      apply List.mem_append.mpr
      left
      rw [if_pos ⟨hgit, hsvn, hhg⟩]
      exact hx
    · cases e with
      | dir n2 c2 =>
        rw [scanEntries]
        exact List.mem_append.mpr (Or.inr (ih cur h' x hx))
      | file n2 =>
        rw [scanEntries]
        exact List.mem_append.mpr (Or.inr (ih cur h' x hx))

theorem scanEntries_complete (root : FPath) {ts : List FTree} {rel : List String}
    (hm : HasMarker ts rel) :
    (∀ c ∈ rel.dropLast, c ∉ vcsNames) →
    ∀ cur, (derive_skill_name root (cur ++ rel), cur ++ rel)
      ∈ scanEntries root cur ts := by
  induction hm with
  | here hmem =>
    intro _ cur
    exact mem_scan_of_file root _ cur hmem
  | there hmem hm2 ih =>
    intro hv cur
    rename_i ts2 name children rel2
    have hrel2 : rel2 ≠ [] := hm2.ne_nil
    have hns : name ∉ vcsNames := by
      apply hv
      rw [List.dropLast_cons_of_ne_nil hrel2]
      exact List.mem_cons_self _ _
    have hv2 : ∀ c ∈ rel2.dropLast, c ∉ vcsNames := by
      intro c hc
      apply hv
      rw [List.dropLast_cons_of_ne_nil hrel2]
      exact List.mem_cons_of_mem _ hc
    have hx := ih hv2 (cur ++ [name])
    have heq : (cur ++ [name]) ++ rel2 = cur ++ name :: rel2 := by
      rw [List.append_assoc]
      rfl
    rw [heq] at hx
    simp only [vcsNames, List.mem_cons, List.mem_singleton, not_or] at hns
    have := mem_scan_sub root name children hns.1 hns.2.1 (by simpa using hns.2.2)
      ts2 cur hmem _ hx
    exact this

/-- Claim C6: the scanner surfaces exactly the markers whose directory
chain avoids the fixed VCS set `.git`/`.svn`/`.hg` (so a marker under
`.git/` is never surfaced while one under any other dotted directory is),
and the derived skill name is the scan root's own directory name for a
marker directly in the root, and otherwise the marker's immediate parent
directory name. -/
theorem scanner_spec :
    (∀ (root : FPath) (ts : List FTree) (x : String × FPath),
        x ∈ scan_for_skills root ts →
        ∃ rel, x.2 = root ++ rel ∧ HasMarker ts rel
          ∧ (∀ c ∈ rel.dropLast, c ∉ vcsNames)
          ∧ x.1 = derive_skill_name root x.2)
    ∧ (∀ (root : FPath) (ts : List FTree) (rel : List String),
        HasMarker ts rel → (∀ c ∈ rel.dropLast, c ∉ vcsNames) →
        (derive_skill_name root (root ++ rel), root ++ rel)
          ∈ scan_for_skills root ts)
    ∧ (∀ (root : FPath) (dirs : List String),
        (derive_skill_name root (root ++ ["SKILL.md"]) = (dir_name root).getD "unknown")
        ∧ (dirs ≠ [] →
            derive_skill_name root (root ++ (dirs ++ ["SKILL.md"]))
              = (dirs.getLast?).getD "unknown")) := by
  refine ⟨?_, ?_, ?_⟩
  · intro root ts x hx
    exact scanEntries_sound root ts root x hx
  · intro root ts rel hm hv
    exact scanEntries_complete root hm hv root
  · intro root dirs
    constructor
    · have hne : root ++ ["SKILL.md"] ≠ [] := by simp
      have hdl : (root ++ ["SKILL.md"]).dropLast = root := by
        rw [List.dropLast_append_of_ne_nil _ (by simp : (["SKILL.md"] : List String) ≠ [])]
        simp
      rw [derive_skill_name, parentPath, if_neg hne, hdl]
      show (if root = root then (dir_name root).getD "unknown"
        else (dir_name root).getD "unknown") = (dir_name root).getD "unknown"
      rw [if_pos rfl]
    · intro hdne
      have hne : root ++ (dirs ++ ["SKILL.md"]) ≠ [] := by simp
      have hdl : (root ++ (dirs ++ ["SKILL.md"])).dropLast = root ++ dirs := by
        rw [← List.append_assoc,
          List.dropLast_append_of_ne_nil _ (by simp : (["SKILL.md"] : List String) ≠ [])]
        simp
      have hneq : root ++ dirs ≠ root := by
        intro hc
        have := congrArg List.length hc
        simp at this
        exact hdne this
      rw [derive_skill_name, parentPath, if_neg hne, hdl]
      show (if root ++ dirs = root then (dir_name root).getD "unknown"
        else (dir_name (root ++ dirs)).getD "unknown") = (dirs.getLast?).getD "unknown"
      rw [if_neg hneq, dir_name, List.getLast?_append_of_ne_nil root hdne]

/-- Witness for C6: a marker under `.system/my-skill/` is surfaced with
name `my-skill` while a marker under `.git/` is not (concrete instance of
the characterization). -/
theorem scanner_spec_witness :
    ("my-skill", ["root", ".system", "my-skill", "SKILL.md"])
      ∈ scan_for_skills ["root"]
        [FTree.dir ".git" [FTree.file "SKILL.md"],
         FTree.dir ".system" [FTree.dir "my-skill" [FTree.file "SKILL.md"]]] := by
  have hm : HasMarker
      [FTree.dir ".git" [FTree.file "SKILL.md"],
       FTree.dir ".system" [FTree.dir "my-skill" [FTree.file "SKILL.md"]]]
      [".system", "my-skill", "SKILL.md"] :=
    HasMarker.there (List.mem_cons_of_mem _ (List.mem_cons_self _ _))
      (HasMarker.there (List.mem_cons_self _ _)
        (HasMarker.here (List.mem_cons_self _ _)))
  have h := scanner_spec.2.1 ["root"]
    [FTree.dir ".git" [FTree.file "SKILL.md"],
     FTree.dir ".system" [FTree.dir "my-skill" [FTree.file "SKILL.md"]]]
    [".system", "my-skill", "SKILL.md"] hm (by decide)
  have heq : derive_skill_name ["root"]
      (["root"] ++ [".system", "my-skill", "SKILL.md"]) = "my-skill" := by decide
  rw [heq] at h
  exact h

/-! ## String-primitive lemmas for the URL parser -/

theorem dropWhile_eq_self_of_none (p : Char → Bool) (l : Str)
    (h : ∀ c ∈ l, p c = false) : l.dropWhile p = l := by
  cases l with
  | nil => rfl
  | cons a l =>
    rw [List.dropWhile_cons, h a (List.mem_cons_self a l)]
    simp

theorem strTrim_eq_self (s : Str) (h : ∀ c ∈ s, c.isWhitespace = false) :
    strTrim s = s := by
  rw [strTrim, dropWhile_eq_self_of_none _ s h,
    dropWhile_eq_self_of_none _ s.reverse (fun c hc => h c (List.mem_reverse.mp hc)),
    List.reverse_reverse]

theorem splitOnce_append (c : Char) (a b : Str) (h : c ∉ a) :
    splitOnce c (a ++ c :: b) = some (a, b) := by
  induction a with
  | nil => simp [splitOnce]
  | cons x xs ih =>
    have hx : x ≠ c := fun hc => h (hc ▸ List.mem_cons_self x xs)
    rw [List.cons_append, splitOnce, if_neg hx,
      ih (fun hc => h (List.mem_cons_of_mem x hc))]
    rfl

theorem splitOnce_none (c : Char) (s : Str) (h : c ∉ s) :
    splitOnce c s = none := by
  induction s with
  | nil => rfl
  | cons x xs ih =>
    have hx : x ≠ c := fun hc => h (hc ▸ List.mem_cons_self x xs)
    rw [splitOnce, if_neg hx, ih (fun hc => h (List.mem_cons_of_mem x hc))]
    rfl

theorem splitOnce_eq_some (c : Char) (s a b : Str)
    (h : splitOnce c s = some (a, b)) : s = a ++ c :: b ∧ c ∉ a := by
  induction s generalizing a with
  | nil => simp [splitOnce] at h
  | cons x xs ih =>
    rw [splitOnce] at h
    by_cases hx : x = c
    · rw [if_pos hx] at h
      simp only [Option.some.injEq, Prod.mk.injEq] at h
      obtain ⟨rfl, rfl⟩ := h
      exact ⟨by rw [hx]; rfl, by simp⟩
    · rw [if_neg hx] at h
      rcases hsp : splitOnce c xs with _ | p
      · rw [hsp] at h
        simp at h
      · rw [hsp] at h
        simp only [Option.map_some', Option.some.injEq, Prod.mk.injEq] at h
        obtain ⟨h1, h2⟩ := h
        obtain ⟨h3, h4⟩ := ih p.1 (by rw [hsp, ← h2])
        constructor
        · rw [← h1, List.cons_append, h3]
        · rw [← h1]
          intro hc
          rcases List.mem_cons.mp hc with rfl | hc'
          · exact hx rfl
          · exact h4 hc'

theorem isPrefixOf_append_self (p r : Str) : p.isPrefixOf (p ++ r) = true :=
  List.isPrefixOf_iff_prefix.mpr (List.prefix_append p r)

theorem stripPrefixStr_append (p r : Str) : stripPrefixStr p (p ++ r) = some r := by
  rw [stripPrefixStr, if_pos (isPrefixOf_append_self p r), List.drop_left]

theorem stripPrefixStr_of_not_prefix (p s : Str) (h : ¬ p <+: s) :
    stripPrefixStr p s = none := by
  rw [stripPrefixStr, if_neg]
  intro hc
  exact h (List.isPrefixOf_iff_prefix.mp hc)

theorem not_prefix_of_head_ne (c1 c2 : Char) (p s : Str) (h : c1 ≠ c2) :
    ¬ (c1 :: p) <+: (c2 :: s) := by
  intro ⟨t, ht⟩
  rw [List.cons_append] at ht
  exact h (List.head_eq_of_cons_eq ht)

theorem stripSuffixStr_append (x r : Str) : stripSuffixStr x (r ++ x) = some r := by
  rw [stripSuffixStr,
    if_pos (List.isSuffixOf_iff_suffix.mpr (List.suffix_append r x))]
  have hl : (r ++ x).length - x.length = r.length := by
    rw [List.length_append]
    omega
  rw [hl, List.take_left]

theorem stripSuffixStr_of_not_suffix (x s : Str) (h : ¬ x <:+ s) :
    stripSuffixStr x s = none := by
  rw [stripSuffixStr, if_neg]
  intro hc
  exact h (List.isSuffixOf_iff_suffix.mp hc)

theorem prefix_append_cases (p a b : Str) (h : p <+: a ++ b) :
    p <+: a ∨ ∃ rest, p = a ++ rest ∧ rest <+: b := by
  obtain ⟨t, ht⟩ := h
  rcases List.append_eq_append_iff.mp ht with ⟨a', h1, h2⟩ | ⟨c', h1, h2⟩
  · exact Or.inl ⟨a', h1.symm⟩
  · exact Or.inr ⟨c', h1, ⟨t, h2.symm⟩⟩

theorem gitSuffix_not_suffix_mid (owner repo : Str)
    (h : ¬ gitSuffix <:+ repo) : ¬ gitSuffix <:+ (owner ++ '/' :: repo) := by
  intro hc
  rw [← List.reverse_prefix, List.reverse_append, List.reverse_cons,
    List.append_assoc] at hc
  rcases prefix_append_cases _ _ _ hc with h1 | ⟨rest, h1, h2⟩
  · exact h (by rw [← List.reverse_prefix]; exact h1)
  · cases rest with
    | nil =>
      rw [List.append_nil] at h1
      refine h (List.reverse_prefix.mp ?_)
      rw [h1]
    | cons c cs =>
      have hcp : c = '/' := by
        obtain ⟨t, ht⟩ := h2
        rw [List.cons_append] at ht
        exact List.head_eq_of_cons_eq ht
      have hmem : c ∈ gitSuffix.reverse := by
        rw [h1]
        exact List.mem_append.mpr (Or.inr (List.mem_cons_self c cs))
      rw [hcp] at hmem
      simp [gitSuffix] at hmem

theorem containsStr_prefix_self (p b : Str) : containsStr p (p ++ b) = true := by
  cases p with
  | nil =>
    cases b with
    | nil => rfl
    | cons x xs =>
      rw [List.nil_append, containsStr]
      simp [List.isPrefixOf]
  | cons c p' =>
    rw [List.cons_append, containsStr]
    have h1 : (c :: p').isPrefixOf (c :: (p' ++ b)) = true := by
      rw [← List.cons_append]
      exact isPrefixOf_append_self _ _
    rw [h1, Bool.true_or]

theorem containsStr_mid (p a b : Str) : containsStr p (a ++ p ++ b) = true := by
  induction a with
  | nil =>
    rw [List.nil_append]
    exact containsStr_prefix_self p b
  | cons x a' ih =>
    show containsStr p (x :: (a' ++ p ++ b)) = true
    rw [containsStr, ih, Bool.or_true]

theorem mem_of_containsStr (p s : Str) (h : containsStr p s = true) :
    ∀ c ∈ p, c ∈ s := by
  induction s with
  | nil =>
    rw [containsStr, List.isEmpty_iff] at h
    subst h
    intro c hc
    exact absurd hc (by simp)
  | cons x xs ih =>
    rw [containsStr] at h
    intro c hc
    rcases Bool.or_eq_true_iff.mp h with h1 | h2
    · exact (List.isPrefixOf_iff_prefix.mp h1).subset hc
    · exact List.mem_cons_of_mem x (ih h2 c hc)

theorem containsStr_eq_false_of_not_mem (p s : Str) (c : Char) (hc : c ∈ p)
    (h : c ∉ s) : containsStr p s = false := by
  rw [Bool.eq_false_iff]
  intro hcon
  exact h (mem_of_containsStr p s hcon c hc)

theorem containsStr_ssep_colon (pre suf : Str) (hp : ':' ∉ pre) (hs : ':' ∉ suf)
    (hh : suf.head? ≠ some '/') :
    containsStr schemeSep (pre ++ ':' :: suf) = false := by
  induction pre with
  | nil =>
    rw [List.nil_append, containsStr]
    have h1 : schemeSep.isPrefixOf (':' :: suf) = false := by
      show ([':', '/', '/'] : Str).isPrefixOf (':' :: suf) = false
      cases suf with
      | nil => rfl
      | cons y ys =>
        have hy : y ≠ '/' := by
          intro hc
          exact hh (by rw [hc]; rfl)
        simp [List.isPrefixOf, hy, Ne.symm hy]
    rw [h1]
    have h2 : containsStr schemeSep suf = false :=
      containsStr_eq_false_of_not_mem _ _ ':' (by simp [schemeSep]) hs
    rw [h2]
    rfl
  | cons x pre' ih =>
    rw [List.cons_append, containsStr]
    have hx : x ≠ ':' := fun hcc => hp (hcc ▸ List.mem_cons_self x pre')
    have h1 : schemeSep.isPrefixOf (x :: (pre' ++ ':' :: suf)) = false := by
      show ([':', '/', '/'] : Str).isPrefixOf _ = false
      simp [List.isPrefixOf, Ne.symm hx]
    rw [h1, ih (fun hcc => hp (List.mem_cons_of_mem x hcc))]
    rfl

/-! ## Branch evaluation of `GitSource::parse` -/

theorem segOk_no_slash (s : Str) (h : segOk s) : '/' ∉ s :=
  fun hc => (h.2 '/' hc).1 rfl

theorem segOk_no_colon (s : Str) (h : segOk s) : ':' ∉ s :=
  fun hc => (h.2 ':' hc).2.1 rfl

theorem segOk_no_ws (s : Str) (h : segOk s) : ∀ c ∈ s, c.isWhitespace = false :=
  fun c hc => (h.2 c hc).2.2.2

theorem parse_owner_repo_eq (owner repo host u : Str) (ho : segOk owner)
    (hr : segOk repo) (hg : ¬ gitSuffix <:+ repo) :
    GitSource.parse_owner_repo (owner ++ '/' :: repo) host u
        = .ok ⟨host, owner, repo, u⟩
      ∧ GitSource.parse_owner_repo (owner ++ '/' :: (repo ++ gitSuffix)) host u
        = .ok ⟨host, owner, repo, u⟩ := by
  have hsplit : splitn2 '/' (owner ++ '/' :: repo) = [owner, repo] := by
    rw [splitn2, splitOnce_append '/' owner repo (segOk_no_slash owner ho)]
  have hne : ¬ (owner = [] ∨ repo = []) := by
    push_neg
    exact ⟨ho.1, hr.1⟩
  constructor
  · rw [GitSource.parse_owner_repo,
      stripSuffixStr_of_not_suffix _ _ (gitSuffix_not_suffix_mid owner repo hg)]
    simp only [Option.getD_none, hsplit]
    rw [if_neg hne]
  · have hshape : owner ++ '/' :: (repo ++ gitSuffix)
        = (owner ++ '/' :: repo) ++ gitSuffix := by
      rw [List.append_assoc]
      rfl
    rw [GitSource.parse_owner_repo, hshape, stripSuffixStr_append]
    simp only [Option.getD_some, hsplit]
    rw [if_neg hne]

theorem parse_https_eval (host Y u : Str) (hh : '/' ∉ host) :
    GitSource.parse_https (host ++ '/' :: Y) u = GitSource.parse_owner_repo Y host u := by
  rw [GitSource.parse_https, splitn2, splitOnce_append '/' host Y hh]

theorem parse_ssh_eval (host Y u : Str) (hh : ':' ∉ host) :
    GitSource.parse_ssh (host ++ ':' :: Y) u = GitSource.parse_owner_repo Y host u := by
  rw [GitSource.parse_ssh, splitn2, splitOnce_append ':' host Y hh]

theorem parse_full_https (host Y : Str) (hh : segOk host)
    (hY : ∀ c ∈ Y, c.isWhitespace = false) :
    GitSource.parse (httpsPrefix ++ (host ++ '/' :: Y))
      = GitSource.parse_https (host ++ '/' :: Y) (httpsPrefix ++ (host ++ '/' :: Y)) := by
  have ht : strTrim (httpsPrefix ++ (host ++ '/' :: Y)) = httpsPrefix ++ (host ++ '/' :: Y) := by
    refine strTrim_eq_self _ ?_
    intro c hc
    rcases List.mem_append.mp hc with h1 | h2
    · exact (by decide : ∀ c ∈ httpsPrefix, c.isWhitespace = false) c h1
    · rcases List.mem_append.mp h2 with h3 | h4
      · exact segOk_no_ws host hh c h3
      · rcases List.mem_cons.mp h4 with rfl | h5
        · decide
        · exact hY c h5
  have hcont : containsStr schemeSep (httpsPrefix ++ (host ++ '/' :: Y)) = true :=
    containsStr_mid schemeSep ['h', 't', 't', 'p', 's'] (host ++ '/' :: Y)
  have hsh : GitSource.parseShorthand (httpsPrefix ++ (host ++ '/' :: Y)) = none := by
    rw [GitSource.parseShorthand, if_neg]
    intro hcond
    rw [hcont] at hcond
    exact hcond.1 rfl
  rw [GitSource.parse, ht, hsh, stripPrefixStr_append]

theorem parse_full_ssh (host Y : Str) (hh : segOk host)
    (hY : ∀ c ∈ Y, c.isWhitespace = false) (hYc : ':' ∉ Y)
    (hYh : Y.head? ≠ some '/') :
    GitSource.parse (gitAtPrefix ++ (host ++ ':' :: Y))
      = GitSource.parse_ssh (host ++ ':' :: Y) (gitAtPrefix ++ (host ++ ':' :: Y)) := by
  have ht : strTrim (gitAtPrefix ++ (host ++ ':' :: Y)) = gitAtPrefix ++ (host ++ ':' :: Y) := by
    refine strTrim_eq_self _ ?_
    intro c hc
    rcases List.mem_append.mp hc with h1 | h2
    · exact (by decide : ∀ c ∈ gitAtPrefix, c.isWhitespace = false) c h1
    · rcases List.mem_append.mp h2 with h3 | h4
      · exact segOk_no_ws host hh c h3
      · rcases List.mem_cons.mp h4 with rfl | h5
        · decide
        · exact hY c h5
  have hshape : gitAtPrefix ++ (host ++ ':' :: Y)
      = (gitAtPrefix ++ host) ++ ':' :: Y := by
    rw [List.append_assoc]
  have hcont : containsStr schemeSep (gitAtPrefix ++ (host ++ ':' :: Y)) = false := by
    rw [hshape]
    refine containsStr_ssep_colon (gitAtPrefix ++ host) Y ?_ hYc hYh
    intro hc
    rcases List.mem_append.mp hc with h1 | h2
    · exact (by decide : ':' ∉ gitAtPrefix) h1
    · exact segOk_no_colon host hh h2
  have hga : gitAtPrefix.isPrefixOf (gitAtPrefix ++ (host ++ ':' :: Y)) = true :=
    isPrefixOf_append_self _ _
  have hsh : GitSource.parseShorthand (gitAtPrefix ++ (host ++ ':' :: Y)) = none := by
    rw [GitSource.parseShorthand, if_neg]
    intro hcond
    rw [hga] at hcond
    exact hcond.2 rfl
  have hhttps : stripPrefixStr httpsPrefix (gitAtPrefix ++ (host ++ ':' :: Y)) = none := by
    refine stripPrefixStr_of_not_prefix _ _ ?_
    show ¬ ('h' :: ['t', 't', 'p', 's', ':', '/', '/'])
      <+: ('g' :: (['i', 't', '@'] ++ (host ++ ':' :: Y)))
    exact not_prefix_of_head_ne 'h' 'g' _ _ (by decide)
  rw [GitSource.parse, ht, hsh, hhttps, stripPrefixStr_append]

theorem parse_shorthand_eq (owner repo : Str) (ho : segOk owner) (hr : segOk repo)
    (hg : ¬ gitSuffix <:+ repo) :
    GitSource.parse (owner ++ '/' :: repo) =
      .ok ⟨githubHost, owner, repo,
        httpsPrefix ++ githubHost ++ '/' :: owner ++ '/' :: repo⟩ := by
  have hmem : ∀ c ∈ owner ++ '/' :: repo, c ∈ owner ∨ c = '/' ∨ c ∈ repo := by
    intro c hc
    rcases List.mem_append.mp hc with h1 | h2
    · exact Or.inl h1
    · rcases List.mem_cons.mp h2 with rfl | h3
      · exact Or.inr (Or.inl rfl)
      · exact Or.inr (Or.inr h3)
  have ht : strTrim (owner ++ '/' :: repo) = owner ++ '/' :: repo := by
    refine strTrim_eq_self _ ?_
    intro c hc
    rcases hmem c hc with h1 | h2 | h3
    · exact segOk_no_ws owner ho c h1
    · rw [h2]; decide
    · exact segOk_no_ws repo hr c h3
  have hcolon : ':' ∉ owner ++ '/' :: repo := by
    intro hc
    rcases hmem ':' hc with h1 | h2 | h3
    · exact segOk_no_colon owner ho h1
    · exact absurd h2 (by decide)
    · exact segOk_no_colon repo hr h3
  have hcont : containsStr schemeSep (owner ++ '/' :: repo) = false :=
    containsStr_eq_false_of_not_mem _ _ ':' (by decide) hcolon
  have hga : gitAtPrefix.isPrefixOf (owner ++ '/' :: repo) = false := by
    rw [Bool.eq_false_iff]
    intro hc
    have hat : '@' ∈ owner ++ '/' :: repo :=
      (List.isPrefixOf_iff_prefix.mp hc).subset (by decide)
    rcases hmem '@' hat with h1 | h2 | h3
    · exact (ho.2 '@' h1).2.2.1 rfl
    · exact absurd h2 (by decide)
    · exact (hr.2 '@' h3).2.2.1 rfl
  have hrc : repo.contains '/' = false := by
    rw [Bool.eq_false_iff]
    intro hc
    exact segOk_no_slash repo hr (by simpa using hc)
  have hsh : GitSource.parseShorthand (owner ++ '/' :: repo) =
      some ⟨githubHost, owner, repo,
        httpsPrefix ++ githubHost ++ '/' :: owner ++ '/' :: repo⟩ := by
    rw [GitSource.parseShorthand, if_pos (by rw [hcont, hga]; exact ⟨by simp, by simp⟩),
      splitOnce_append '/' owner repo (segOk_no_slash owner ho)]
    show (if owner ≠ [] ∧ repo ≠ [] ∧ ¬ repo.contains '/' = true then _ else _) = _
    rw [if_pos ⟨ho.1, hr.1, by rw [hrc]; simp⟩,
      stripSuffixStr_of_not_suffix _ _ hg]
    rfl
  rw [GitSource.parse, ht, hsh]

/-- Claim C4: for well-formed host/owner/repo segments (nonempty, made of
characters that are not `/`, `:`, `@` or whitespace, with the repo not
itself ending in `.git`), the shorthand form, the HTTPS form with and
without the `.git` suffix, and the SSH form with and without the `.git`
suffix all parse to the same `(host, owner, repo)` triple — the shorthand
host being the fixed `github.com` and its url the synthesized HTTPS url,
while the other forms keep the input verbatim as url; and
`parse("anthropics/claude-code")` yields host `github.com`, owner
`anthropics`, repo `claude-code` and url
`https://github.com/anthropics/claude-code`. -/
theorem parse_forms_agree :
    (∀ host owner repo : Str, segOk host → segOk owner → segOk repo →
      ¬ gitSuffix <:+ repo →
        GitSource.parse (owner ++ '/' :: repo)
          = .ok ⟨githubHost, owner, repo,
              httpsPrefix ++ githubHost ++ '/' :: owner ++ '/' :: repo⟩
        ∧ GitSource.parse (httpsPrefix ++ (host ++ '/' :: (owner ++ '/' :: repo)))
          = .ok ⟨host, owner, repo,
              httpsPrefix ++ (host ++ '/' :: (owner ++ '/' :: repo))⟩
        ∧ GitSource.parse
            (httpsPrefix ++ (host ++ '/' :: (owner ++ '/' :: (repo ++ gitSuffix))))
          = .ok ⟨host, owner, repo,
              httpsPrefix ++ (host ++ '/' :: (owner ++ '/' :: (repo ++ gitSuffix)))⟩
        ∧ GitSource.parse (gitAtPrefix ++ (host ++ ':' :: (owner ++ '/' :: repo)))
          = .ok ⟨host, owner, repo,
              gitAtPrefix ++ (host ++ ':' :: (owner ++ '/' :: repo))⟩
        ∧ GitSource.parse
            (gitAtPrefix ++ (host ++ ':' :: (owner ++ '/' :: (repo ++ gitSuffix))))
          = .ok ⟨host, owner, repo,
              gitAtPrefix ++ (host ++ ':' :: (owner ++ '/' :: (repo ++ gitSuffix)))⟩)
    ∧ GitSource.parse ("anthropics/claude-code".data)
      = .ok ⟨"github.com".data, "anthropics".data, "claude-code".data,
          "https://github.com/anthropics/claude-code".data⟩ := by
  constructor
  · intro host owner repo hh ho hr hg
    have hYws : ∀ c ∈ owner ++ '/' :: repo, c.isWhitespace = false := by
      intro c hc
      rcases List.mem_append.mp hc with h1 | h2
      · exact segOk_no_ws owner ho c h1
      · rcases List.mem_cons.mp h2 with rfl | h3
        · decide
        · exact segOk_no_ws repo hr c h3
    have hYws2 : ∀ c ∈ owner ++ '/' :: (repo ++ gitSuffix), c.isWhitespace = false := by
      intro c hc
      rcases List.mem_append.mp hc with h1 | h2
      · exact segOk_no_ws owner ho c h1
      · rcases List.mem_cons.mp h2 with rfl | h3
        · decide
        · rcases List.mem_append.mp h3 with h4 | h5
          · exact segOk_no_ws repo hr c h4
          · exact (by decide : ∀ c ∈ gitSuffix, c.isWhitespace = false) c h5
    have hYc : ':' ∉ owner ++ '/' :: repo := by
      intro hc
      rcases List.mem_append.mp hc with h1 | h2
      · exact segOk_no_colon owner ho h1
      · rcases List.mem_cons.mp h2 with h3 | h4
        · exact absurd h3 (by decide)
        · exact segOk_no_colon repo hr h4
    have hYc2 : ':' ∉ owner ++ '/' :: (repo ++ gitSuffix) := by
      intro hc
      rcases List.mem_append.mp hc with h1 | h2
      · exact segOk_no_colon owner ho h1
      · rcases List.mem_cons.mp h2 with h3 | h4
        · exact absurd h3 (by decide)
        · rcases List.mem_append.mp h4 with h5 | h6
          · exact segOk_no_colon repo hr h5
          · exact (by decide : ':' ∉ gitSuffix) h6
    have hYh : ∀ z : Str, (owner ++ '/' :: z).head? ≠ some '/' := by
      intro z
      cases howner : owner with
      | nil => exact absurd howner ho.1
      | cons c oc =>
        rw [List.cons_append, List.head?_cons]
        intro hc
        exact ((howner ▸ ho.2) c (List.mem_cons_self c oc)).1 (Option.some.inj hc)
    have hpor := parse_owner_repo_eq owner repo host
    refine ⟨parse_shorthand_eq owner repo ho hr hg, ?_, ?_, ?_, ?_⟩
    · rw [parse_full_https host _ hh hYws,
        parse_https_eval host _ _ (segOk_no_slash host hh)]
      exact (hpor _ ho hr hg).1
    · rw [parse_full_https host _ hh hYws2,
        parse_https_eval host _ _ (segOk_no_slash host hh)]
      exact (hpor _ ho hr hg).2
    · rw [parse_full_ssh host _ hh hYws hYc (hYh repo),
        parse_ssh_eval host _ _ (segOk_no_colon host hh)]
      exact (hpor _ ho hr hg).1
    · rw [parse_full_ssh host _ hh hYws2 hYc2 (hYh (repo ++ gitSuffix)),
        parse_ssh_eval host _ _ (segOk_no_colon host hh)]
      exact (hpor _ ho hr hg).2
  · decide

/-- Witness for C4: the shorthand case at a concrete owner and repo. -/
theorem parse_forms_agree_witness :
    GitSource.parse ("user/project".data)
      = .ok ⟨githubHost, "user".data, "project".data,
          httpsPrefix ++ githubHost ++ '/' :: "user".data ++ '/' :: "project".data⟩ := by
  have h := (parse_forms_agree.1 ("gitlab.com".data) ("user".data) ("project".data)
    (by decide) (by decide) (by decide) (by decide)).1
  have heq : ("user/project".data : Str) = "user".data ++ '/' :: "project".data := by
    decide
  rw [heq]
  exact h

/-! ## Failure analysis of `GitSource::parse` -/

theorem stripPrefixStr_some (p s r : Str) (h : stripPrefixStr p s = some r) :
    s = p ++ r := by
  rw [stripPrefixStr] at h
  split at h
  · rename_i hp
    obtain ⟨t, ht⟩ := List.isPrefixOf_iff_prefix.mp hp
    obtain rfl := Option.some.inj h
    rw [← ht, List.drop_left]
  · exact absurd h (by simp)

theorem splitn2_eq_of_none (c : Char) (s : Str) (h : splitOnce c s = none) :
    splitn2 c s = [s] := by
  rw [splitn2, h]

theorem splitn2_eq_of_some (c : Char) (s a b : Str)
    (h : splitOnce c s = some (a, b)) : splitn2 c s = [a, b] := by
  rw [splitn2, h]

theorem parseShorthand_some_shape (t : Str) (g : GitSource)
    (h : GitSource.parseShorthand t = some g) :
    ∃ o r, t = o ++ '/' :: r ∧ o ≠ [] ∧ r ≠ [] ∧ '/' ∉ o ∧ '/' ∉ r := by
  rw [GitSource.parseShorthand] at h
  split at h
  · rcases hsp : splitOnce '/' t with _ | ⟨o, r⟩ <;> rw [hsp] at h
    · exact absurd h (by simp)
    · have h' : (if o ≠ [] ∧ r ≠ [] ∧ ¬ r.contains '/' = true then
          some (GitSource.mk githubHost o ((stripSuffixStr gitSuffix r).getD r)
            (httpsPrefix ++ githubHost ++ '/' :: o ++ '/' ::
              ((stripSuffixStr gitSuffix r).getD r)))
          else none) = some g := h
      split at h'
      next hc2 =>
        obtain ⟨h4, h5⟩ := splitOnce_eq_some '/' t o r hsp
        exact ⟨o, r, h4, hc2.1, hc2.2.1, h5,
          fun hc => hc2.2.2 (by simpa using hc)⟩
      next => exact absurd h' (by simp)
  · exact absurd h (by simp)

theorem parse_owner_repo_ok_shape (path host u : Str) (g : GitSource)
    (h : GitSource.parse_owner_repo path host u = .ok g) :
    ∃ o r, (stripSuffixStr gitSuffix path).getD path = o ++ '/' :: r
      ∧ o ≠ [] ∧ r ≠ [] ∧ '/' ∉ o ∧ g = ⟨host, o, r, u⟩ := by
  rcases hsp : splitOnce '/' ((stripSuffixStr gitSuffix path).getD path)
    with _ | ⟨o, r⟩
  · have hv : GitSource.parse_owner_repo path host u = .error (.InvalidUrl u) := by
      rw [GitSource.parse_owner_repo, splitn2_eq_of_none _ _ hsp]
    rw [hv] at h
    exact absurd h (by simp)
  · have hv : GitSource.parse_owner_repo path host u =
        (if o = [] ∨ r = [] then .error (.InvalidUrl u)
          else .ok ⟨host, o, r, u⟩) := by
      rw [GitSource.parse_owner_repo, splitn2_eq_of_some _ _ _ _ hsp]
    rw [hv] at h
    split at h
    · exact absurd h (by simp)
    · rename_i hcond
      push_neg at hcond
      obtain ⟨h4, h5⟩ := splitOnce_eq_some '/' _ o r hsp
      exact ⟨o, r, h4, hcond.1, hcond.2, h5, (Except.ok.inj h).symm⟩

theorem parse_https_ok_shape (rest u : Str) (g : GitSource)
    (h : GitSource.parse_https rest u = .ok g) :
    ∃ host path, rest = host ++ '/' :: path ∧ '/' ∉ host
      ∧ GitSource.parse_owner_repo path host u = .ok g := by
  rcases hsp : splitOnce '/' rest with _ | ⟨host, path⟩
  · have hv : GitSource.parse_https rest u = .error (.InvalidUrl u) := by
      rw [GitSource.parse_https, splitn2_eq_of_none _ _ hsp]
    rw [hv] at h
    exact absurd h (by simp)
  · have hv : GitSource.parse_https rest u
        = GitSource.parse_owner_repo path host u := by
      rw [GitSource.parse_https, splitn2_eq_of_some _ _ _ _ hsp]
    rw [hv] at h
    obtain ⟨h4, h5⟩ := splitOnce_eq_some '/' rest host path hsp
    exact ⟨host, path, h4, h5, h⟩

theorem parse_ssh_ok_shape (rest u : Str) (g : GitSource)
    (h : GitSource.parse_ssh rest u = .ok g) :
    ∃ host path, rest = host ++ ':' :: path ∧ ':' ∉ host
      ∧ GitSource.parse_owner_repo path host u = .ok g := by
  rcases hsp : splitOnce ':' rest with _ | ⟨host, path⟩
  · have hv : GitSource.parse_ssh rest u = .error (.InvalidUrl u) := by
      rw [GitSource.parse_ssh, splitn2_eq_of_none _ _ hsp]
    rw [hv] at h
    exact absurd h (by simp)
  · have hv : GitSource.parse_ssh rest u
        = GitSource.parse_owner_repo path host u := by
      rw [GitSource.parse_ssh, splitn2_eq_of_some _ _ _ _ hsp]
    rw [hv] at h
    obtain ⟨h4, h5⟩ := splitOnce_eq_some ':' rest host path hsp
    exact ⟨host, path, h4, h5, h⟩

theorem parse_ok_cases (s : Str) (g : GitSource)
    (h : GitSource.parse s = .ok g) :
    GitSource.parseShorthand (strTrim s) = some g
    ∨ (∃ rest, stripPrefixStr httpsPrefix (strTrim s) = some rest
        ∧ GitSource.parse_https rest (strTrim s) = .ok g)
    ∨ (∃ rest, stripPrefixStr gitAtPrefix (strTrim s) = some rest
        ∧ GitSource.parse_ssh rest (strTrim s) = .ok g) := by
  rcases hsh : GitSource.parseShorthand (strTrim s) with _ | g'
  · rcases hhp : stripPrefixStr httpsPrefix (strTrim s) with _ | rest
    · rcases hgp : stripPrefixStr gitAtPrefix (strTrim s) with _ | rest2
      · have hv : GitSource.parse s = .error (.InvalidUrl s) := by
          rw [GitSource.parse, hsh, hhp, hgp]
        rw [hv] at h
        exact absurd h (by simp)
      · have hv : GitSource.parse s = GitSource.parse_ssh rest2 (strTrim s) := by
          rw [GitSource.parse, hsh, hhp, hgp]
        rw [hv] at h
        exact Or.inr (Or.inr ⟨rest2, rfl, h⟩)
    · have hv : GitSource.parse s = GitSource.parse_https rest (strTrim s) := by
        rw [GitSource.parse, hsh, hhp]
      rw [hv] at h
      exact Or.inr (Or.inl ⟨rest, rfl, h⟩)
  · have hv : GitSource.parse s = .ok g' := by
      rw [GitSource.parse, hsh]
    rw [hv] at h
    have hg : g' = g := Except.ok.inj h
    exact Or.inl (congrArg some hg)

theorem parse_owner_repo_error_shape (path host u : Str) :
    (∃ g, GitSource.parse_owner_repo path host u = .ok g)
    ∨ GitSource.parse_owner_repo path host u = .error (.InvalidUrl u) := by
  rcases hsp : splitOnce '/' ((stripSuffixStr gitSuffix path).getD path)
    with _ | ⟨o, r⟩
  · right
    rw [GitSource.parse_owner_repo, splitn2_eq_of_none _ _ hsp]
  · have hv : GitSource.parse_owner_repo path host u =
        (if o = [] ∨ r = [] then .error (.InvalidUrl u)
          else .ok ⟨host, o, r, u⟩) := by
      rw [GitSource.parse_owner_repo, splitn2_eq_of_some _ _ _ _ hsp]
    rw [hv]
    by_cases hc : o = [] ∨ r = []
    · exact Or.inr (by rw [if_pos hc])
    · exact Or.inl ⟨_, by rw [if_neg hc]⟩

theorem parse_error_invalid (s : Str) :
    (∃ g, GitSource.parse s = .ok g)
    ∨ ∃ u, GitSource.parse s = .error (.InvalidUrl u) := by
  rcases hsh : GitSource.parseShorthand (strTrim s) with _ | g'
  · rcases hhp : stripPrefixStr httpsPrefix (strTrim s) with _ | rest
    · rcases hgp : stripPrefixStr gitAtPrefix (strTrim s) with _ | rest2
      · exact Or.inr ⟨s, by rw [GitSource.parse, hsh, hhp, hgp]⟩
      · have hv : GitSource.parse s = GitSource.parse_ssh rest2 (strTrim s) := by
          rw [GitSource.parse, hsh, hhp, hgp]
        rcases hsp : splitOnce ':' rest2 with _ | ⟨host, path⟩
        · refine Or.inr ⟨strTrim s, ?_⟩
          rw [hv, GitSource.parse_ssh, splitn2_eq_of_none _ _ hsp]
        · have hv2 : GitSource.parse s = GitSource.parse_owner_repo path host (strTrim s) := by
            rw [hv, GitSource.parse_ssh, splitn2_eq_of_some _ _ _ _ hsp]
          rcases parse_owner_repo_error_shape path host (strTrim s) with ⟨g, hg⟩ | hg
          · exact Or.inl ⟨g, by rw [hv2, hg]⟩
          · exact Or.inr ⟨strTrim s, by rw [hv2, hg]⟩
    · have hv : GitSource.parse s = GitSource.parse_https rest (strTrim s) := by
        rw [GitSource.parse, hsh, hhp]
      rcases hsp : splitOnce '/' rest with _ | ⟨host, path⟩
      · refine Or.inr ⟨strTrim s, ?_⟩
        rw [hv, GitSource.parse_https, splitn2_eq_of_none _ _ hsp]
      · have hv2 : GitSource.parse s = GitSource.parse_owner_repo path host (strTrim s) := by
          rw [hv, GitSource.parse_https, splitn2_eq_of_some _ _ _ _ hsp]
        rcases parse_owner_repo_error_shape path host (strTrim s) with ⟨g, hg⟩ | hg
        · exact Or.inl ⟨g, by rw [hv2, hg]⟩
        · exact Or.inr ⟨strTrim s, by rw [hv2, hg]⟩
  · exact Or.inl ⟨g', by rw [GitSource.parse, hsh]⟩

/-- Claim C5: the five listed malformed inputs all fail with `InvalidUrl`;
`parse` never fails with any other error kind; and whenever `parse`
succeeds, the (trimmed) input has one of the three accepted shapes with
non-empty owner and repo segments — so every input without such a shape
fails with `InvalidUrl`. -/
theorem parse_invalid_spec :
    GitSource.parse ("owner".data) = .error (.InvalidUrl ("owner".data))
    ∧ GitSource.parse ("owner/".data) = .error (.InvalidUrl ("owner/".data))
    ∧ GitSource.parse ("/repo".data) = .error (.InvalidUrl ("/repo".data))
    ∧ GitSource.parse ("https://github.com".data)
        = .error (.InvalidUrl ("https://github.com".data))
    ∧ GitSource.parse ("https://github.com/owner".data)
        = .error (.InvalidUrl ("https://github.com/owner".data))
    ∧ (∀ s : Str, (∃ g, GitSource.parse s = .ok g)
        ∨ ∃ u, GitSource.parse s = .error (.InvalidUrl u))
    ∧ (∀ (s : Str) (g : GitSource), GitSource.parse s = .ok g →
        (∃ o r, strTrim s = o ++ '/' :: r ∧ o ≠ [] ∧ r ≠ [] ∧ '/' ∉ o ∧ '/' ∉ r)
        ∨ (∃ host path o r, strTrim s = httpsPrefix ++ (host ++ '/' :: path)
            ∧ '/' ∉ host
            ∧ (stripSuffixStr gitSuffix path).getD path = o ++ '/' :: r
            ∧ o ≠ [] ∧ r ≠ [])
        ∨ (∃ host path o r, strTrim s = gitAtPrefix ++ (host ++ ':' :: path)
            ∧ ':' ∉ host
            ∧ (stripSuffixStr gitSuffix path).getD path = o ++ '/' :: r
            ∧ o ≠ [] ∧ r ≠ [])) := by
  refine ⟨by decide, by decide, by decide, by decide, by decide,
    parse_error_invalid, ?_⟩
  intro s g h
  rcases parse_ok_cases s g h with h1 | ⟨rest, h2, h3⟩ | ⟨rest, h2, h3⟩
  · obtain ⟨o, r, h4, h5, h6, h7, h8⟩ := parseShorthand_some_shape _ _ h1
    exact Or.inl ⟨o, r, h4, h5, h6, h7, h8⟩
  · obtain ⟨host, path, h4, h5, h6⟩ := parse_https_ok_shape _ _ _ h3
    obtain ⟨o, r, h7, h8, h9, _, _⟩ := parse_owner_repo_ok_shape _ _ _ _ h6
    exact Or.inr (Or.inl ⟨host, path, o, r,
      by rw [stripPrefixStr_some _ _ _ h2, h4], h5, h7, h8, h9⟩)
  · obtain ⟨host, path, h4, h5, h6⟩ := parse_ssh_ok_shape _ _ _ h3
    obtain ⟨o, r, h7, h8, h9, _, _⟩ := parse_owner_repo_ok_shape _ _ _ _ h6
    exact Or.inr (Or.inr ⟨host, path, o, r,
      by rw [stripPrefixStr_some _ _ _ h2, h4], h5, h7, h8, h9⟩)

/-- Witness for C5: the success-or-`InvalidUrl` alternative at a concrete
input. -/
theorem parse_invalid_spec_witness :
    (∃ g, GitSource.parse ("not-a-url".data) = .ok g)
    ∨ ∃ u, GitSource.parse ("not-a-url".data) = .error (.InvalidUrl u) :=
  parse_invalid_spec.2.2.2.2.2.1 ("not-a-url".data)

/-! ## Update-reconciliation lemmas -/

theorem claudeLinkPath_inj (h : FPath) (a b : String)
    (he : claudeLinkPath h a = claudeLinkPath h b) : a = b := by
  have h2 := List.append_cancel_left he
  simpa using h2

theorem claudeLinkPath_length (h : FPath) (qn : String) :
    (claudeLinkPath h qn).length = h.length + 3 := by
  rw [claudeLinkPath, List.length_append]
  rfl

theorem remove_symlink_cases (qn : String) (f : FS) (hm : FPath)
    (hf : f.home = some hm) :
    (remove_skill_symlink qn f).1.dirs = f.dirs
    ∧ (remove_skill_symlink qn f).1.home = f.home
    ∧ (((remove_skill_symlink qn f).1.links = f.links
        ∧ ∀ d, (claudeLinkPath hm qn, d) ∉ f.links)
      ∨ (remove_skill_symlink qn f).1.links
          = f.links.filter (fun l => !(l.1 == claudeLinkPath hm qn))) := by
  have hcd : claude_skills_dir f.home = some (hm ++ [".claude", "skills"]) := by
    rw [hf]
    rfl
  have hlp : (hm ++ [".claude", "skills"]) ++ [qn] = claudeLinkPath hm qn := by
    rw [claudeLinkPath, List.append_assoc]
    rfl
  set lp := claudeLinkPath hm qn with hlpdef
  by_cases hse : f.symlink_exists lp
  · by_cases hany : f.links.any (fun l => l.1 == lp)
    · have hv : remove_skill_symlink qn f =
          ({ f with links := f.links.filter (fun l => !(l.1 == lp)) }, .ok ()) := by
        have hrf : f.removeFile lp = .ok
            { f with links := f.links.filter (fun l => !(l.1 == lp)) } := by
          rw [FS.removeFile, if_pos hany]
        rw [remove_skill_symlink, hcd]
        simp only [hlp, ← hlpdef, hse, if_true, hrf]
      rw [hv]
      exact ⟨rfl, rfl, Or.inr rfl⟩
    · have hv : remove_skill_symlink qn f = (f, .error .Io) := by
        have hrf : f.removeFile lp = .error .Io := by
          rw [FS.removeFile, if_neg hany]
        rw [remove_skill_symlink, hcd]
        simp only [hlp, ← hlpdef, hse, if_true, hrf]
      rw [hv]
      refine ⟨rfl, rfl, Or.inl ⟨rfl, ?_⟩⟩
      intro d hd
      have hany' := Bool.eq_false_iff.mpr hany
      rw [List.any_eq_false] at hany'
      exact hany' _ hd (by simp)
  · have hse' : f.symlink_exists lp = false := by simpa using hse
    have hv : remove_skill_symlink qn f = (f, .ok ()) := by
      rw [remove_skill_symlink, hcd]
      simp only [hlp, ← hlpdef, hse', Bool.false_eq_true, if_false]
    rw [hv]
    refine ⟨rfl, rfl, Or.inl ⟨rfl, ?_⟩⟩
    intro d hd
    rw [FS.symlink_exists] at hse'
    rcases Bool.or_eq_false_iff.mp hse' with ⟨ha, _⟩
    rw [List.any_eq_false] at ha
    exact ha _ hd (by simp)

theorem link_cases (sk : Skill) (f : FS) (hm : FPath) (hf : f.home = some hm) :
    (sk.link f).1.home = f.home
    ∧ (∀ q ∈ (sk.link f).1.dirs, q ∈ f.dirs ∨ q.length ≤ hm.length + 2)
    ∧ ((sk.link f).1.links = f.links
        ∨ (sk.link f).1.links
            = (claudeLinkPath hm sk.qualified_name, sk.path.dropLast) :: f.links)
    ∧ (f.symlink_exists (claudeLinkPath hm sk.qualified_name) = false →
        sk.path ≠ [] →
        (sk.link f).1.links
          = (claudeLinkPath hm sk.qualified_name, sk.path.dropLast) :: f.links) := by
  have hlp : sk.link_path_for f.home .ClaudeCode
      = some (claudeLinkPath hm sk.qualified_name) := by
    rw [hf]
    exact claude_link_path_eq sk hm
  set lp := claudeLinkPath hm sk.qualified_name with hlpdef
  have hsd : lp.dropLast = hm ++ [".claude", "skills"] := by
    rw [hlpdef, claudeLinkPath]
    rw [show hm ++ [".claude", "skills", sk.qualified_name]
      = (hm ++ [".claude", "skills"]) ++ [sk.qualified_name] by
        rw [List.append_assoc]; rfl]
    rw [List.dropLast_append_of_ne_nil _ (by simp : ([sk.qualified_name] : FPath) ≠ [])]
    simp
  have hlpne : lp ≠ [] := by
    rw [hlpdef, claudeLinkPath]
    simp
  have hparent : parentPath lp = some (hm ++ [".claude", "skills"]) := by
    rw [parentPath, if_neg hlpne, hsd]
  by_cases hse : f.symlink_exists lp
  · have hv : sk.link f = (f, .error (.AlreadyLinked sk.qualified_name)) := by
      rw [Skill.link, Skill.link_to, hlp]
      simp only [hse, if_true]
    rw [hv]
    exact ⟨rfl, fun q hq => Or.inl hq, Or.inl rfl,
      fun hc => absurd hse (by simp [hc])⟩
  · have hse' : f.symlink_exists lp = false := by simpa using hse
    have hdirs : ∀ q ∈ (f.create_dir_all (hm ++ [".claude", "skills"])).dirs,
        q ∈ f.dirs ∨ q.length ≤ hm.length + 2 := by
      intro q hq
      rcases (create_dir_all_mem f _ q).mp hq with h1 | ⟨i, hi, rfl⟩
      · exact Or.inl h1
      · right
        rw [List.length_take, List.length_append]
        rw [List.mem_range, List.length_append] at hi
        simp only [List.length_cons, List.length_nil]
        omega
    cases hp : parentPath sk.path with
    | none =>
      have hv : sk.link f = (f.create_dir_all (hm ++ [".claude", "skills"]),
          .error (.LinkFailed sk.name "invalid skill path")) := by
        rw [Skill.link, Skill.link_to, hlp]
        simp only [hse', Bool.false_eq_true, if_false, hparent, hp]
      rw [hv]
      have hpn : sk.path = [] := by
        rw [parentPath] at hp
        split at hp
        · assumption
        · exact absurd hp (by simp)
      exact ⟨rfl, hdirs, Or.inl (create_dir_all_links _ _), fun _ hc => absurd hpn hc⟩
    | some sd =>
      have hsdv : sd = sk.path.dropLast := by
        rw [parentPath] at hp
        split at hp
        · exact absurd hp (by simp)
        · exact (Option.some.inj hp).symm
      have hv : sk.link f = ({ f.create_dir_all (hm ++ [".claude", "skills"]) with
          links := (lp, sd) :: (f.create_dir_all (hm ++ [".claude", "skills"])).links },
          .ok ()) := by
        rw [Skill.link, Skill.link_to, hlp]
        simp only [hse', Bool.false_eq_true, if_false, hparent, hp]
      rw [hv]
      refine ⟨rfl, hdirs, ?_, ?_⟩
      · right
        rw [hsdv, create_dir_all_links]
      · intro _ _
        rw [hsdv, create_dir_all_links]

theorem filter_filter_ne (links : List (FPath × FPath)) (lp lpnr : FPath)
    (h : lp ≠ lpnr) :
    (links.filter (fun l => !(l.1 == lpnr))).filter (fun l => l.1 == lp)
      = links.filter (fun l => l.1 == lp) := by
  rw [List.filter_filter]
  refine List.filter_congr ?_
  intro a _
  by_cases hx : a.1 = lp
  · simp [hx, h]
  · simp [hx]

theorem filter_self_nil (links : List (FPath × FPath)) (lp : FPath) :
    (links.filter (fun l => !(l.1 == lp))).filter (fun l => l.1 == lp) = [] := by
  rw [List.filter_filter]
  rw [List.filter_eq_nil_iff]
  intro a _
  by_cases hx : a.1 = lp <;> simp [hx]

theorem no_entry_filter_nil (links : List (FPath × FPath)) (lp : FPath)
    (h : ∀ d, (lp, d) ∉ links) : links.filter (fun l => l.1 == lp) = [] := by
  rw [List.filter_eq_nil_iff]
  intro a ha hc
  have hx : a.1 = lp := by simpa using hc
  exact h a.2 (by rw [← hx]; exact ha)

theorem remove_symlink_filter_nil (qn : String) (f : FS) (hm : FPath)
    (hf : f.home = some hm) :
    (remove_skill_symlink qn f).1.links.filter
      (fun l => l.1 == claudeLinkPath hm qn) = [] := by
  rcases (remove_symlink_cases qn f hm hf).2.2 with ⟨heq, hno⟩ | heq
  · rw [heq]
    exact no_entry_filter_nil _ _ hno
  · rw [heq]
    exact filter_self_nil _ _

theorem reconcileOne_other (np : Plugin) (hm : FPath) (qnA : String)
    (f : FS) (nr : String × FPath) (hf : f.home = some hm) (hne : nr.1 ≠ qnA) :
    (reconcileOne np f nr).home = f.home
    ∧ (∀ q ∈ (reconcileOne np f nr).dirs, q ∈ f.dirs ∨ q.length ≤ hm.length + 2)
    ∧ (reconcileOne np f nr).links.filter (fun l => l.1 == claudeLinkPath hm qnA)
        = f.links.filter (fun l => l.1 == claudeLinkPath hm qnA) := by
  have hlpne : claudeLinkPath hm qnA ≠ claudeLinkPath hm nr.1 :=
    fun hc => hne (claudeLinkPath_inj hm _ _ hc).symm
  have hrm := remove_symlink_cases nr.1 f hm hf
  have hrm_filter : (remove_skill_symlink nr.1 f).1.links.filter
      (fun l => l.1 == claudeLinkPath hm qnA)
      = f.links.filter (fun l => l.1 == claudeLinkPath hm qnA) := by
    rcases hrm.2.2 with ⟨heq, _⟩ | heq
    · rw [heq]
    · rw [heq]
      exact filter_filter_ne _ _ _ hlpne
  rcases hlk : lookupLast nr.1 (np.skills.map (fun s => (s.qualified_name, s.path)))
    with _ | np2
  · have hv : reconcileOne np f nr = (remove_skill_symlink nr.1 f).1 := by
      rw [reconcileOne, hlk]
    rw [hv]
    exact ⟨hrm.2.1, fun q hq => Or.inl (hrm.1 ▸ hq), hrm_filter⟩
  · by_cases hmv : np2 ≠ nr.2
    · rcases hfind : np.skills.find? (fun s => s.qualified_name == nr.1) with _ | sk
      · have hv : reconcileOne np f nr = (remove_skill_symlink nr.1 f).1 := by
          simp [reconcileOne, hlk, hfind, hmv]
        rw [hv]
        exact ⟨hrm.2.1, fun q hq => Or.inl (hrm.1 ▸ hq), hrm_filter⟩
      · have hv : reconcileOne np f nr
            = (sk.link (remove_skill_symlink nr.1 f).1).1 := by
          simp [reconcileOne, hlk, hfind, hmv]
        rw [hv]
        have hskq : sk.qualified_name = nr.1 := by
          simpa using List.find?_some hfind
        have hf1 : (remove_skill_symlink nr.1 f).1.home = some hm :=
          hrm.2.1.trans hf
        have hlc := link_cases sk ((remove_skill_symlink nr.1 f).1) hm hf1
        refine ⟨hlc.1.trans hrm.2.1, ?_, ?_⟩
        · intro q hq
          rcases hlc.2.1 q hq with h1 | h2
          · exact Or.inl (hrm.1 ▸ h1)
          · exact Or.inr h2
        · rcases hlc.2.2.1 with heq | heq
          · rw [heq, hrm_filter]
          · rw [heq, List.filter_cons_of_neg, hrm_filter]
            rw [hskq]
            simp [Ne.symm hlpne]
    · have hv : reconcileOne np f nr = f := by
        push_neg at hmv
        simp [reconcileOne, hlk, hmv]
      rw [hv]
      exact ⟨rfl, fun q hq => Or.inl hq, rfl⟩

theorem reconcileFold_other (np : Plugin) (hm : FPath) (qnA : String) :
    ∀ (L : List (String × FPath)) (f : FS), f.home = some hm →
      (∀ x ∈ L, x.1 ≠ qnA) →
      (L.foldl (reconcileOne np) f).home = f.home
      ∧ (∀ q ∈ (L.foldl (reconcileOne np) f).dirs,
          q ∈ f.dirs ∨ q.length ≤ hm.length + 2)
      ∧ (L.foldl (reconcileOne np) f).links.filter
            (fun l => l.1 == claudeLinkPath hm qnA)
          = f.links.filter (fun l => l.1 == claudeLinkPath hm qnA) := by
  intro L
  induction L with
  | nil => exact fun f _ _ => ⟨rfl, fun q hq => Or.inl hq, rfl⟩
  | cons nr rest ih =>
    intro f hf hall
    have hstep := reconcileOne_other np hm qnA f nr hf
      (hall nr (List.mem_cons_self nr rest))
    have hf' : (reconcileOne np f nr).home = some hm := hstep.1.trans hf
    obtain ⟨ih1, ih2, ih3⟩ := ih (reconcileOne np f nr) hf'
      (fun x hx => hall x (List.mem_cons_of_mem nr hx))
    rw [List.foldl_cons]
    refine ⟨ih1.trans hstep.1, ?_, ih3.trans hstep.2.2⟩
    intro q hq
    rcases ih2 q hq with h1 | h2
    · exact hstep.2.1 q h1
    · exact Or.inr h2

theorem reconcileOne_removed (np : Plugin) (hm : FPath) (f : FS)
    (qn : String) (pt : FPath) (hf : f.home = some hm)
    (hlk : lookupLast qn (np.skills.map (fun s => (s.qualified_name, s.path)))
      = none) :
    (reconcileOne np f (qn, pt)).home = f.home
    ∧ (∀ q ∈ (reconcileOne np f (qn, pt)).dirs,
        q ∈ f.dirs ∨ q.length ≤ hm.length + 2)
    ∧ (reconcileOne np f (qn, pt)).links.filter
        (fun l => l.1 == claudeLinkPath hm qn) = [] := by
  have hv : reconcileOne np f (qn, pt) = (remove_skill_symlink qn f).1 := by
    rw [reconcileOne]
    show (match lookupLast qn (np.skills.map (fun s => (s.qualified_name, s.path))) with
      | none => (remove_skill_symlink qn f).1
      | some new_path =>
        if new_path ≠ pt then
          let f1 := (remove_skill_symlink qn f).1
          match np.skills.find? (fun s => s.qualified_name == qn) with
          | some sk => (sk.link f1).1
          | none => f1
        else f) = (remove_skill_symlink qn f).1
    rw [hlk]
  rw [hv]
  have hrm := remove_symlink_cases qn f hm hf
  exact ⟨hrm.2.1, fun q hq => Or.inl (hrm.1 ▸ hq),
    remove_symlink_filter_nil qn f hm hf⟩

theorem reconcileOne_moved (np : Plugin) (hm : FPath) (f : FS)
    (qn : String) (pt : FPath) (np2 : FPath) (sk : Skill) (hf : f.home = some hm)
    (hlpd : claudeLinkPath hm qn ∉ f.dirs)
    (hlk : lookupLast qn (np.skills.map (fun s => (s.qualified_name, s.path)))
      = some np2)
    (hmv : np2 ≠ pt)
    (hfind : np.skills.find? (fun s => s.qualified_name == qn) = some sk)
    (hskp : sk.path ≠ []) :
    (reconcileOne np f (qn, pt)).home = f.home
    ∧ (∀ q ∈ (reconcileOne np f (qn, pt)).dirs,
        q ∈ f.dirs ∨ q.length ≤ hm.length + 2)
    ∧ (reconcileOne np f (qn, pt)).links.filter
        (fun l => l.1 == claudeLinkPath hm qn)
        = [(claudeLinkPath hm qn, sk.path.dropLast)] := by
  have hv : reconcileOne np f (qn, pt)
      = (sk.link (remove_skill_symlink qn f).1).1 := by
    simp [reconcileOne, hlk, hfind, hmv]
  rw [hv]
  have hskq : sk.qualified_name = qn := by
    simpa using List.find?_some hfind
  have hrm := remove_symlink_cases qn f hm hf
  have hf1 : (remove_skill_symlink qn f).1.home = some hm := hrm.2.1.trans hf
  have hfil1 : (remove_skill_symlink qn f).1.links.filter
      (fun l => l.1 == claudeLinkPath hm qn) = [] :=
    remove_symlink_filter_nil qn f hm hf
  have hse : (remove_skill_symlink qn f).1.symlink_exists
      (claudeLinkPath hm qn) = false := by
    rw [FS.symlink_exists, Bool.or_eq_false_iff]
    constructor
    · rw [List.any_eq_false]
      intro l hl
      have := List.filter_eq_nil_iff.mp hfil1 l hl
      simpa using this
    · have : claudeLinkPath hm qn ∉ (remove_skill_symlink qn f).1.dirs := by
        rw [hrm.1]
        exact hlpd
      simpa using this
  have hlc := link_cases sk ((remove_skill_symlink qn f).1) hm hf1
  have hlinkv := hlc.2.2.2 (by rw [hskq]; exact hse) hskp
  refine ⟨hlc.1.trans hrm.2.1, ?_, ?_⟩
  · intro q hq
    rcases hlc.2.1 q hq with h1 | h2
    · exact Or.inl (hrm.1 ▸ h1)
    · exact Or.inr h2
  · rw [hlinkv, hskq, List.filter_cons_of_pos (by simp), hfil1]

theorem reconcileOne_unchanged (np : Plugin) (f : FS) (qn : String)
    (pt : FPath) (np2 : FPath)
    (hlk : lookupLast qn (np.skills.map (fun s => (s.qualified_name, s.path)))
      = some np2)
    (heq : np2 = pt) :
    reconcileOne np f (qn, pt) = f := by
  simp [reconcileOne, hlk, heq]

theorem lookupLast_unique (L : List (String × FPath))
    (hnd : (L.map Prod.fst).Nodup) (qn : String) (pt : FPath)
    (hmem : (qn, pt) ∈ L) :
    lookupLast qn L = some pt := by
  rw [lookupLast]
  rcases hf : L.reverse.find? (fun x => x.1 == qn) with _ | x
  · rw [List.find?_eq_none] at hf
    exact absurd (by simp : ((fun (x : String × FPath) => x.1 == qn) (qn, pt)) = true)
      (by simpa using hf (qn, pt) (List.mem_reverse.mpr hmem))
  · have h1 : x.1 = qn := by simpa using List.find?_some hf
    have h2 : x ∈ L := List.mem_reverse.mp (List.mem_of_find?_eq_some hf)
    have h3 : x = (qn, pt) := List.inj_on_of_nodup_map hnd h2 hmem h1
    rw [hf, h3]
    rfl

theorem string_append_right_inj (pre n1 n2 : String)
    (h : pre ++ n1 = pre ++ n2) : n1 = n2 := by
  have h2 := congrArg String.data h
  simp [String.data_append] at h2
  exact String.ext h2

theorem find_skill_unique (l : List Skill)
    (hnd : (l.map (fun s => s.qualified_name)).Nodup) (sk : Skill)
    (hmem : sk ∈ l) :
    l.find? (fun s => s.qualified_name == sk.qualified_name) = some sk := by
  rcases hf : l.find? (fun s => s.qualified_name == sk.qualified_name) with _ | sk0
  · rw [List.find?_eq_none] at hf
    exact absurd (by simp : (sk.qualified_name == sk.qualified_name) = true)
      (by simpa using hf sk hmem)
  · have h1 : sk0.qualified_name = sk.qualified_name := by
      simpa using List.find?_some hf
    have h2 : sk0 ∈ l := List.mem_of_find?_eq_some hf
    have h3 := List.inj_on_of_nodup_map hnd h2 hmem h1
    rw [h3] at hf
    exact hf

/-- Claim C2: for a plugin with a skill `A` linked (to Claude Code) before
update — under the well-formedness side conditions that the linked
skills' qualified names and the freshly scanned skill names are
duplicate-free, `A` carries the plugin's owner/repo, and no real
directory occupies `A`'s link path — a successful `update` returns the
rescanned plugin, and: if the post-pull scan has no skill with `A`'s
qualified name, `A`'s link is removed; if it has one whose marker path
changed, the old link is replaced by exactly one link at the same
qualified name pointing at the new marker's parent directory; and if the
marker path is unchanged, the entries at `A`'s link path are exactly
those before the update. -/
theorem plugin_update_reconciliation :
    ∀ (p : Plugin) (fs : FS) (newScan : List (String × FPath)) (hm : FPath)
      (A : Skill),
      is_git_repo fs p.path = true →
      fs.home = some hm →
      A ∈ p.skills →
      A.is_linked fs = true →
      ((p.skills.filter (fun s => s.is_linked fs)).map
        (fun s => s.qualified_name)).Nodup →
      (newScan.map Prod.fst).Nodup →
      claudeLinkPath hm A.qualified_name ∉ fs.dirs →
      (p.update (Except.ok ()) newScan fs).2
          = .ok (Plugin.build p.host p.owner p.repo p.path newScan)
      ∧ ((∀ nr ∈ newScan,
            Skill.qualified_name ⟨nr.1, nr.2, none, p.owner, p.repo⟩
              ≠ A.qualified_name) →
          (p.update (Except.ok ()) newScan fs).1.links.filter
            (fun l => l.1 == claudeLinkPath hm A.qualified_name) = [])
      ∧ (∀ nr ∈ newScan,
          Skill.qualified_name ⟨nr.1, nr.2, none, p.owner, p.repo⟩
            = A.qualified_name →
          nr.2 ≠ A.path → nr.2 ≠ [] →
          (p.update (Except.ok ()) newScan fs).1.links.filter
            (fun l => l.1 == claudeLinkPath hm A.qualified_name)
            = [(claudeLinkPath hm A.qualified_name, nr.2.dropLast)])
      ∧ (∀ nr ∈ newScan,
          Skill.qualified_name ⟨nr.1, nr.2, none, p.owner, p.repo⟩
            = A.qualified_name →
          nr.2 = A.path →
          (p.update (Except.ok ()) newScan fs).1.links.filter
            (fun l => l.1 == claudeLinkPath hm A.qualified_name)
            = fs.links.filter
              (fun l => l.1 == claudeLinkPath hm A.qualified_name)) := by
  intro p fs newScan hm A hg hh hA hAl hndOld hndNew hlpd
  set np := Plugin.build p.host p.owner p.repo p.path newScan with hnp
  set L := (p.skills.filter (fun s => s.is_linked fs)).map
    (fun s => (s.qualified_name, s.path)) with hL
  have hval : p.update (Except.ok ()) newScan fs
      = (L.foldl (reconcileOne np) fs, .ok np) := by
    rw [Plugin.update, if_neg (by simp [hg])]
  have hndL : (L.map Prod.fst).Nodup := by
    rw [hL, List.map_map]
    exact hndOld
  have hndQ : (np.skills.map (fun s => s.qualified_name)).Nodup := by
    show ((newScan.map (fun nr =>
      (⟨nr.1, nr.2, none, p.owner, p.repo⟩ : Skill))).map
        (fun s => s.qualified_name)).Nodup
    rw [List.map_map]
    have hinj : Function.Injective
        (fun n => p.owner ++ ":" ++ p.repo ++ ":" ++ n) := by
      intro a b hab
      exact string_append_right_inj _ _ _ hab
    have hmm : ((newScan.map Prod.fst).map
        (fun n => p.owner ++ ":" ++ p.repo ++ ":" ++ n)).Nodup :=
      hndNew.map hinj
    rw [List.map_map] at hmm
    exact hmm
  have hndPairs : ((np.skills.map
      (fun s => (s.qualified_name, s.path))).map Prod.fst).Nodup := by
    rw [List.map_map]
    exact hndQ
  have hAmem : (A.qualified_name, A.path) ∈ L := by
    rw [hL]
    exact List.mem_map.mpr ⟨A, List.mem_filter.mpr ⟨hA, by simp [hAl]⟩, rfl⟩
  obtain ⟨L₁, L₂, hLd⟩ := List.append_of_mem hAmem
  have hnotmid : A.qualified_name ∉ L₁.map Prod.fst
      ∧ A.qualified_name ∉ L₂.map Prod.fst := by
    have hnd2 := hndL
    rw [hLd, List.map_append, List.map_cons] at hnd2
    rw [List.nodup_middle, List.nodup_cons] at hnd2
    constructor
    · intro hc
      exact hnd2.1 (List.mem_append.mpr (Or.inl hc))
    · intro hc
      exact hnd2.1 (List.mem_append.mpr (Or.inr hc))
  have hL₁ : ∀ x ∈ L₁, x.1 ≠ A.qualified_name := by
    intro x hx hc
    exact hnotmid.1 (List.mem_map.mpr ⟨x, hx, hc⟩)
  have hL₂ : ∀ x ∈ L₂, x.1 ≠ A.qualified_name := by
    intro x hx hc
    exact hnotmid.2 (List.mem_map.mpr ⟨x, hx, hc⟩)
  have hfold : L.foldl (reconcileOne np) fs
      = L₂.foldl (reconcileOne np)
          (reconcileOne np (L₁.foldl (reconcileOne np) fs)
            (A.qualified_name, A.path)) := by
    rw [hLd, List.foldl_append, List.foldl_cons]
  obtain ⟨hfA_home, hfA_dirs, hfA_filter⟩ :=
    reconcileFold_other np hm A.qualified_name L₁ fs hh hL₁
  have hfA_home' : (L₁.foldl (reconcileOne np) fs).home = some hm :=
    hfA_home.trans hh
  have hlpdA : claudeLinkPath hm A.qualified_name
      ∉ (L₁.foldl (reconcileOne np) fs).dirs := by
    intro hc
    rcases hfA_dirs _ hc with h1 | h2
    · exact hlpd h1
    · rw [claudeLinkPath_length] at h2
      omega
  refine ⟨by rw [hval], ?_, ?_, ?_⟩
  · intro hnone
    have hlkn : lookupLast A.qualified_name
        (np.skills.map (fun s => (s.qualified_name, s.path))) = none := by
      rw [lookupLast]
      have hfn : (np.skills.map (fun s => (s.qualified_name, s.path))).reverse.find?
          (fun x => x.1 == A.qualified_name) = none := by
        rw [List.find?_eq_none]
        intro x hx
        obtain ⟨s, hs, rfl⟩ := List.mem_map.mp (List.mem_reverse.mp hx)
        obtain ⟨nr', hnr', rfl⟩ := List.mem_map.mp hs
        simpa using hnone nr' hnr'
      rw [hfn]
      rfl
    obtain ⟨hAh, _, hAf⟩ := reconcileOne_removed np hm
      (L₁.foldl (reconcileOne np) fs) A.qualified_name A.path hfA_home' hlkn
    obtain ⟨_, _, h2f⟩ := reconcileFold_other np hm A.qualified_name L₂
      (reconcileOne np (L₁.foldl (reconcileOne np) fs)
        (A.qualified_name, A.path))
      (hAh.trans hfA_home') hL₂
    rw [hval]
    show (L.foldl (reconcileOne np) fs).links.filter _ = _
    rw [hfold, h2f, hAf]
  · intro nr hnr hq hne hnn
    have hskmem : (⟨nr.1, nr.2, none, p.owner, p.repo⟩ : Skill) ∈ np.skills :=
      List.mem_map.mpr ⟨nr, hnr, rfl⟩
    have hpmem : (A.qualified_name, nr.2)
        ∈ np.skills.map (fun s => (s.qualified_name, s.path)) := by
      rw [← hq]
      exact List.mem_map.mpr ⟨⟨nr.1, nr.2, none, p.owner, p.repo⟩, hskmem, rfl⟩
    have hlks : lookupLast A.qualified_name
        (np.skills.map (fun s => (s.qualified_name, s.path))) = some nr.2 :=
      lookupLast_unique _ hndPairs _ _ hpmem
    have hfind : np.skills.find?
        (fun s => s.qualified_name == A.qualified_name)
        = some ⟨nr.1, nr.2, none, p.owner, p.repo⟩ := by
      have := find_skill_unique np.skills hndQ
        ⟨nr.1, nr.2, none, p.owner, p.repo⟩ hskmem
      rw [hq] at this
      exact this
    obtain ⟨hAh, _, hAf⟩ := reconcileOne_moved np hm
      (L₁.foldl (reconcileOne np) fs) A.qualified_name A.path nr.2
      ⟨nr.1, nr.2, none, p.owner, p.repo⟩ hfA_home' hlpdA hlks hne hfind hnn
    obtain ⟨_, _, h2f⟩ := reconcileFold_other np hm A.qualified_name L₂
      (reconcileOne np (L₁.foldl (reconcileOne np) fs)
        (A.qualified_name, A.path))
      (hAh.trans hfA_home') hL₂
    rw [hval]
    show (L.foldl (reconcileOne np) fs).links.filter _ = _
    rw [hfold, h2f, hAf]
  · intro nr hnr hq heq
    have hskmem : (⟨nr.1, nr.2, none, p.owner, p.repo⟩ : Skill) ∈ np.skills :=
      List.mem_map.mpr ⟨nr, hnr, rfl⟩
    have hpmem : (A.qualified_name, nr.2)
        ∈ np.skills.map (fun s => (s.qualified_name, s.path)) := by
      rw [← hq]
      exact List.mem_map.mpr ⟨⟨nr.1, nr.2, none, p.owner, p.repo⟩, hskmem, rfl⟩
    have hlks : lookupLast A.qualified_name
        (np.skills.map (fun s => (s.qualified_name, s.path))) = some nr.2 :=
      lookupLast_unique _ hndPairs _ _ hpmem
    have hAv : reconcileOne np (L₁.foldl (reconcileOne np) fs)
        (A.qualified_name, A.path) = L₁.foldl (reconcileOne np) fs :=
      reconcileOne_unchanged np _ A.qualified_name A.path nr.2 hlks heq
    obtain ⟨_, _, h2f⟩ := reconcileFold_other np hm A.qualified_name L₂
      (reconcileOne np (L₁.foldl (reconcileOne np) fs)
        (A.qualified_name, A.path))
      (by rw [hAv]; exact hfA_home') hL₂
    rw [hval]
    show (L.foldl (reconcileOne np) fs).links.filter _ = _
    rw [hfold, h2f, hAv, hfA_filter]

/-- Witness for C2: the unchanged case at a concrete plugin, filesystem
and rescan. -/
theorem plugin_update_reconciliation_witness :
    (Plugin.update
        ⟨"gh", "o", "r", ["cache", "gh", "o", "r"],
          [⟨"foo", ["cache", "gh", "o", "r", "foo", "SKILL.md"], none, "o", "r"⟩]⟩
        (Except.ok ())
        [("foo", ["cache", "gh", "o", "r", "foo", "SKILL.md"])]
        ⟨some ["home"],
          [(["home", ".claude", "skills", "o:r:foo"], ["cache", "gh", "o", "r", "foo"])],
          [["cache", "gh", "o", "r", ".git"], ["cache", "gh", "o", "r", "foo"]]⟩).1.links.filter
      (fun l => l.1 == claudeLinkPath ["home"]
        (Skill.qualified_name
          ⟨"foo", ["cache", "gh", "o", "r", "foo", "SKILL.md"], none, "o", "r"⟩))
    = (FS.links ⟨some ["home"],
        [(["home", ".claude", "skills", "o:r:foo"], ["cache", "gh", "o", "r", "foo"])],
        [["cache", "gh", "o", "r", ".git"], ["cache", "gh", "o", "r", "foo"]]⟩).filter
      (fun l => l.1 == claudeLinkPath ["home"]
        (Skill.qualified_name
          ⟨"foo", ["cache", "gh", "o", "r", "foo", "SKILL.md"], none, "o", "r"⟩)) := by
  have h := plugin_update_reconciliation
    ⟨"gh", "o", "r", ["cache", "gh", "o", "r"],
      [⟨"foo", ["cache", "gh", "o", "r", "foo", "SKILL.md"], none, "o", "r"⟩]⟩
    ⟨some ["home"],
      [(["home", ".claude", "skills", "o:r:foo"], ["cache", "gh", "o", "r", "foo"])],
      [["cache", "gh", "o", "r", ".git"], ["cache", "gh", "o", "r", "foo"]]⟩
    [("foo", ["cache", "gh", "o", "r", "foo", "SKILL.md"])]
    ["home"]
    ⟨"foo", ["cache", "gh", "o", "r", "foo", "SKILL.md"], none, "o", "r"⟩
    (by decide) rfl (by decide) (by decide) (by decide) (by decide) (by decide)
  exact h.2.2.2 ("foo", ["cache", "gh", "o", "r", "foo", "SKILL.md"])
    (by decide) (by decide) rfl

end Skir
